import Mathlib

/-!
Verification of the nanobot-go agent orchestration core.

This file gives a shallow embedding, in Lean 4, of the parts of the
repository that the verified properties talk about:

* the streaming round of `AgentLoop.processMessage`
  (`pkg/agent/loop_system.go`): consumption of one finite chunk sequence,
  incremental outbound streaming, and per-index tool-call reconstruction;
* tool-call finalization (JSON argument parsing is treated as an external
  boundary, passed in as a function, exactly like `encoding/json` is an
  external library to the Go code);
* the bounded tool-use round loop, both the streaming main loop and the
  non-streaming `Chat` loop used by `processSystemMessage` and by the
  subagent runner;
* `SubagentManager.announceResult` and the origin round-trip through the
  composite `channel:chatID` encoding;
* the JSONL session store (`pkg/session/manager.go`), with a concrete,
  executable JSON object codec;
* the unsynchronized `Session.AddMessage` append, as an explicit
  interleaving machine over load/store steps;
* the `edit_file` tool (`EditFileTool.Execute`), over Go's
  `strings.Contains` / `strings.Count` / `strings.Replace` semantics.

Definitions are translated from the Go source; theorems at the end settle
the frozen claims against them.
-/

/-! ## Streamed chunks (pkg/providers/provider.go) -/

/-- Source `providers.ToolCallChunk`: one streamed tool-call fragment,
tagged with the call index it belongs to.  Absent `id`/`name`/`arguments`
fields arrive as the empty string, exactly as in the Go struct. -/
structure ToolCallChunk where
  index : Int
  id : String
  name : String
  arguments : String
  deriving Repr, DecidableEq

/-- Source `providers.LLMStreamChunk`: one element of the streamed model
response.  `isError` models `chunk.Error != nil`; `finishReason` and
`usage` are carried by the Go struct but never read by the loop, so only
`finishReason` is kept here (as an inert field). -/
structure LLMStreamChunk where
  content : String
  toolCall : Option ToolCallChunk
  finishReason : String
  isError : Bool
  deriving Repr, DecidableEq

/-- Convenience constructor for a pure content fragment. -/
def contentChunk (s : String) : LLMStreamChunk :=
  { content := s, toolCall := none, finishReason := "", isError := false }

/-- Convenience constructor for a pure tool-call fragment. -/
def toolChunk (index : Int) (id name arguments : String) : LLMStreamChunk :=
  { content := "", toolCall := some ⟨index, id, name, arguments⟩,
    finishReason := "", isError := false }

/-- Convenience constructor for an error chunk. -/
def errorChunk : LLMStreamChunk :=
  { content := "", toolCall := none, finishReason := "", isError := true }

/-! ## One streaming round (pkg/agent/loop_system.go, processMessage) -/

/-- Source `ToolCallAcc` (local struct of `processMessage`): per-index
accumulator; `args` is the contents of `ArgsBuilder`. -/
structure ToolCallAcc where
  id : String
  name : String
  args : String
  deriving Repr, DecidableEq

/-- The zero value `&ToolCallAcc{}` inserted when an index is first seen. -/
def ToolCallAcc.zero : ToolCallAcc := { id := "", name := "", args := "" }

/-- One accumulator update, mirroring the three guarded assignments:
`if tc.ID != "" { acc.ID = tc.ID }`, same for `Name`, and
`acc.ArgsBuilder.WriteString(tc.Arguments)` guarded on non-empty. -/
def accStep (a : ToolCallAcc) (tc : ToolCallChunk) : ToolCallAcc :=
  { id := if tc.id ≠ "" then tc.id else a.id,
    name := if tc.name ≠ "" then tc.name else a.name,
    args := if tc.arguments ≠ "" then a.args ++ tc.arguments else a.args }

/-- The accumulator map `toolCallAccumulator : map[int]*ToolCallAcc`,
modelled as an association list with unique keys (Go map iteration order
is never relied on: finalization sorts the keys). -/
def AccMap := List (Int × ToolCallAcc)

/-- Map update for one tool-call fragment: insert the zero accumulator if
the index is absent, then apply the guarded field updates. -/
def accUpdate (m : List (Int × ToolCallAcc)) (tc : ToolCallChunk) :
    List (Int × ToolCallAcc) :=
  match m with
  | [] => [(tc.index, accStep ToolCallAcc.zero tc)]
  | (k, a) :: rest =>
    if k = tc.index then (k, accStep a tc) :: rest
    else (k, a) :: accUpdate rest tc

/-- State of one streaming round of `processMessage` (lines 527-577):
`messagePublished`, the `contentBuilder`, the fragments pushed into
`streamOut` (in order), the number of `PublishOutbound` calls that carried
the stream, and the tool-call accumulator. -/
structure RoundState where
  messagePublished : Bool
  content : String
  streamed : List String
  opens : Nat
  acc : List (Int × ToolCallAcc)
  deriving Repr, DecidableEq

/-- The state at the top of a round. -/
def RoundState.init : RoundState :=
  { messagePublished := false, content := "", streamed := [], opens := 0, acc := [] }

/-- Processing of one (non-error) chunk, mirroring the loop body:
a non-empty content fragment first opens the outbound stream if it is not
yet open, then is pushed into `streamOut` and appended to the content
builder; a tool-call fragment updates the accumulator.  A single chunk may
carry both. -/
def processChunk (st : RoundState) (c : LLMStreamChunk) : RoundState :=
  let st1 :=
    if c.content ≠ "" then
      let st' :=
        if !st.messagePublished then
          { st with messagePublished := true, opens := st.opens + 1 }
        else st
      { st' with streamed := st'.streamed ++ [c.content],
                 content := st'.content ++ c.content }
    else st
  match c.toolCall with
  | some tc => { st1 with acc := accUpdate st1.acc tc }
  | none => st1

/-- The prefix of the chunk sequence the loop actually processes: the Go
loop `break`s at the first chunk with `chunk.Error != nil`, without
processing it. -/
def consumedChunks (chunks : List LLMStreamChunk) : List LLMStreamChunk :=
  chunks.takeWhile (fun c => !c.isError)

/-- One full round of chunk consumption. -/
def runRound (chunks : List LLMStreamChunk) : RoundState :=
  (consumedChunks chunks).foldl processChunk RoundState.init

/-- Number of times the round closes `streamOut`: the source executes
`close(streamOut)` exactly once, unconditionally, after the chunk loop
(line 576), whether or not the stream message was ever published. -/
def roundStreamCloses (_chunks : List LLMStreamChunk) : Nat := 1

/-! ### Spec-side observations on a chunk sequence

These definitions describe a chunk sequence directly (by filtering), the
way the claims phrase it; the theorems connect them to the fold above. -/

/-- The tool-call fragments for index `i`, in arrival order, among the
consumed chunks. -/
def toolFragsAt (chunks : List LLMStreamChunk) (i : Int) : List ToolCallChunk :=
  (consumedChunks chunks).filterMap fun c =>
    c.toolCall.bind fun tc => if tc.index = i then some tc else none

/-- The argument-text fragments carried by index `i`'s chunks. -/
def argFragsAt (chunks : List LLMStreamChunk) (i : Int) : List String :=
  (toolFragsAt chunks i).map (·.arguments)

/-- The id fragments carried by index `i`'s chunks. -/
def idFragsAt (chunks : List LLMStreamChunk) (i : Int) : List String :=
  (toolFragsAt chunks i).map (·.id)

/-- The name fragments carried by index `i`'s chunks. -/
def nameFragsAt (chunks : List LLMStreamChunk) (i : Int) : List String :=
  (toolFragsAt chunks i).map (·.name)

/-- Whether index `i` received any tool-call fragment in the round. -/
def receivesIndex (chunks : List LLMStreamChunk) (i : Int) : Prop :=
  toolFragsAt chunks i ≠ []

/-- The first non-empty value in a fragment list (what claim C3 says the
reconstruction keeps), defaulting to `""`. -/
def firstNonEmpty (l : List String) : String :=
  ((l.filter (fun s => s ≠ "")).head?).getD ""

/-- The last non-empty value in a fragment list (what the code actually
keeps: each later non-empty fragment overwrites), defaulting to `""`. -/
def lastNonEmpty (l : List String) : String :=
  l.foldl (fun cur s => if s ≠ "" then s else cur) ""

/-- Whether the consumed prefix contains a (non-empty) content fragment:
this is what triggers publication of the outbound stream. -/
def hasContentFrag (cs : List LLMStreamChunk) : Prop :=
  ∃ c ∈ cs, c.content ≠ ""

/-- Whether the consumed prefix contains any tool-call fragment. -/
def hasToolFrag (cs : List LLMStreamChunk) : Prop :=
  ∃ c ∈ cs, c.toolCall ≠ none

/-- The model's full content for the round: concatenation of every content
field of the consumed chunks (empty fragments contribute nothing). -/
def fullContent (chunks : List LLMStreamChunk) : String :=
  String.join ((consumedChunks chunks).map (·.content))

/-! ### Finalization (lines 579-605) -/

/-- Sorted key extraction, mirroring
`for k := range toolCallAccumulator { indices = append(indices, k) };
sort.Ints(indices)`.  `sort.Ints` sorts ascending; since the output is
determined (up to equality of `Int`) by being a sorted permutation, an
insertion sort gives the same list. -/
def sortedIndices (m : List (Int × ToolCallAcc)) : List Int :=
  (m.map Prod.fst).insertionSort (· ≤ ·)

/-- The finalized (index, accumulator) pairs, in ascending index order. -/
def finalizePairs (m : List (Int × ToolCallAcc)) : List (Int × ToolCallAcc) :=
  (sortedIndices m).map fun i => (i, (m.lookup i).getD ToolCallAcc.zero)

/-! ## JSON values and tool arguments

Tool arguments in the source are `map[string]interface{}`, produced by
`json.Unmarshal` over the accumulated argument text.  Values are modelled
as strings or flat string objects, which covers every value the
orchestration core itself constructs; `json.Unmarshal`/`json.Marshal`
themselves are external library calls and enter the loop model as
function parameters. -/

/-- A JSON value as used by the session store and the tool-argument maps:
a string, or a flat object of strings. -/
inductive JVal where
  | str (s : String)
  | obj (fields : List (String × String))
  deriving Repr, DecidableEq

/-- A JSON object (Go `map[string]interface{}` with the value shapes the
core uses). -/
abbrev JObj := List (String × JVal)

/-- Parsed tool arguments (`map[string]interface{}`); `[]` is the empty
argument set `make(map[string]interface{})`. -/
abbrev Args := List (String × JVal)

/-- Source `providers.ToolCallRequest`: a completed, reconstructed tool
call. -/
structure ToolCallRequest where
  id : String
  name : String
  arguments : Args
  deriving Repr, DecidableEq

/-- Finalization of the accumulator into complete calls (lines 587-605):
for each index in ascending order, the concatenated argument text is
parsed; empty text, or text `parse` rejects, becomes the empty argument
set.  `parse` stands for `json.Unmarshal` into `map[string]interface{}`. -/
def finalizeCalls (parse : String → Option Args)
    (m : List (Int × ToolCallAcc)) : List ToolCallRequest :=
  (finalizePairs m).map fun p =>
    let argsStr := p.2.args
    let args :=
      if argsStr ≠ "" then
        match parse argsStr with
        | some a => a
        | none => []
      else []
    { id := p.2.id, name := p.2.name, arguments := args }

/-! ## Turn context messages (pkg/agent/context.go) -/

/-- A content block of a multimodal user message (`buildUserContent`):
an `image_url` block carrying a data URL, or the trailing `text` block. -/
inductive ContentBlock where
  | imageUrl (url : String)
  | textBlock (s : String)
  deriving Repr, DecidableEq

/-- The `content` of a user message: a plain string when no media is
attached, or a block list. -/
inductive UserContent where
  | text (s : String)
  | blocks (bs : List ContentBlock)
  deriving Repr, DecidableEq

/-- Source `buildUserContent` (context.go): with no media the content is
the plain text; otherwise each media path that stats as an image yields an
`image_url` block (`imageBlock` models the `os.Stat` + mime sniff + read +
base64 chain, returning the data URL for image files and `none`
otherwise); if no block results the content degrades to plain text, else
the text is appended as a final `text` block. -/
def buildUserContent (imageBlock : String → Option String)
    (text : String) (media : List String) : UserContent :=
  if media = [] then .text text
  else
    let blocks := (media.filterMap imageBlock).map ContentBlock.imageUrl
    if blocks = [] then .text text
    else .blocks (blocks ++ [ContentBlock.textBlock text])

/-- One raw tool-call entry of an assistant message (`toolCallsRaw`):
`{"id": …, "type": "function", "function": {"name": …, "arguments":
argsJSON}}`; `argumentsJson` is the `json.Marshal` of the parsed map. -/
structure RawToolCall where
  id : String
  name : String
  argumentsJson : String
  deriving Repr, DecidableEq

/-- One entry of the message list sent to the provider. -/
inductive CtxMsg where
  | system (content : String)
  | user (content : UserContent)
  | history (role : String) (content : String)
  | assistant (content : String) (toolCalls : List RawToolCall)
  | tool (toolCallId : String) (name : String) (content : String)
  deriving Repr, DecidableEq

/-! ## The main streaming round loop (processMessage, lines 514-637) -/

/-- The external collaborators of one `processMessage` turn: the
provider's `Stream` call (indexed by how many rounds were already run),
`json.Unmarshal` / `json.Marshal` for argument maps, and
`Registry.Execute` (a Go `(string, error)` pair: `.error` is a non-nil
error). -/
structure LoopEnv where
  stream : Nat → Except String (List LLMStreamChunk)
  parse : String → Option Args
  marshal : Args → String
  exec : String → Args → Except String String

/-- The text recorded as the tool-result turn for one call: the result on
success, or `Error executing tool: …` when `Execute` returned an error
(lines 627-630) — the error is rendered as result text, never propagated. -/
def toolResultContent (env : LoopEnv) (tc : ToolCallRequest) : String :=
  match env.exec tc.name tc.arguments with
  | .ok r => r
  | .error e => "Error executing tool: " ++ e

/-- The `toolCallsRaw` entry for one reconstructed call (lines 609-620). -/
def rawToolCall (env : LoopEnv) (tc : ToolCallRequest) : RawToolCall :=
  { id := tc.id, name := tc.name, argumentsJson := env.marshal tc.arguments }

/-- The context-message appendix of one tool round: the assistant message
(content plus raw calls, `AddAssistantMessage`) followed by one tool
result per call in reconstruction order (`AddToolResult`). -/
def roundAppendix (env : LoopEnv) (content : String)
    (calls : List ToolCallRequest) : List CtxMsg :=
  CtxMsg.assistant content (calls.map (rawToolCall env)) ::
    calls.map fun tc => CtxMsg.tool tc.id tc.name (toolResultContent env tc)

/-- Result of the round loop: the error `processMessage` would return
(only ever a provider `Stream` failure, wrapped as `LLM error: …`), the
number of provider rounds started, the final message list, the last
round's accumulated content, and the total number of outbound stream
messages published. -/
structure LoopOut where
  error : Option String
  rounds : Nat
  messages : List CtxMsg
  finalContent : String
  opens : Nat
  deriving Repr, DecidableEq

/-- The `for iteration < l.MaxIterations` loop of `processMessage`
(lines 517-637), with `fuel` the remaining iteration budget and `k` the
number of iterations already run (so `env.stream k` is the next call).
Each iteration streams one round, finalizes the reconstructed calls, and
either appends the assistant/tool-result turns and continues, or ends the
turn with the round's content as final answer. -/
def runIterations (env : LoopEnv) :
    Nat → Nat → List CtxMsg → String → LoopOut
  | 0, _, msgs, fc =>
    { error := none, rounds := 0, messages := msgs, finalContent := fc,
      opens := 0 }
  | fuel + 1, k, msgs, fc =>
    match env.stream k with
    | .error e =>
      { error := some ("LLM error: " ++ e), rounds := 1, messages := msgs,
        finalContent := fc, opens := 0 }
    | .ok chunks =>
      let st := runRound chunks
      let fc' := st.content
      let calls := finalizeCalls env.parse st.acc
      match calls with
      | [] =>
        { error := none, rounds := 1, messages := msgs, finalContent := fc',
          opens := st.opens }
      | _ :: _ =>
        let rest := runIterations env fuel (k + 1)
          (msgs ++ roundAppendix env fc' calls) fc'
        { error := rest.error, rounds := rest.rounds + 1,
          messages := rest.messages, finalContent := rest.finalContent,
          opens := st.opens + rest.opens }

/-! ## The non-streaming Chat loop

`processSystemMessage` (lines 56-92) and `SubagentManager.runSubagent`
(lines 221-273) run the same loop shape against the non-streaming
`Provider.Chat` call. -/

/-- A complete (non-streaming) provider response, as far as the loops
read it: content and reconstructed tool calls (`HasToolCalls` is
non-emptiness of `toolCalls`). -/
structure ChatResp where
  content : String
  toolCalls : List ToolCallRequest
  deriving Repr, DecidableEq

/-- External collaborators of a Chat-based loop. -/
structure ChatEnv where
  chat : Nat → Except String ChatResp
  marshal : Args → String
  exec : String → Args → Except String String

/-- Tool-result text in the Chat loops (identical rendering to the main
loop). -/
def chatToolResultContent (env : ChatEnv) (tc : ToolCallRequest) : String :=
  match env.exec tc.name tc.arguments with
  | .ok r => r
  | .error e => "Error executing tool: " ++ e

/-- Raw tool-call entry in the Chat loops. -/
def chatRawToolCall (env : ChatEnv) (tc : ToolCallRequest) : RawToolCall :=
  { id := tc.id, name := tc.name, argumentsJson := env.marshal tc.arguments }

/-- Result of a Chat loop; `error` carries the raw provider error (the
system handler wraps it as `LLM error: …` when returning, the subagent
renders it into its announcement instead). -/
structure ChatLoopOut where
  error : Option String
  rounds : Nat
  messages : List CtxMsg
  finalContent : String
  deriving Repr, DecidableEq

/-- The bounded Chat round loop shared by `processSystemMessage` (bound
`l.MaxIterations`) and `runSubagent` (bound 15): call `Chat`; on provider
error stop with that error; with tool calls append the assistant turn and
one tool-result turn per call, then continue; otherwise the response
content is the final content.  If the budget runs out the final content
stays `""`. -/
def runChatLoop (env : ChatEnv) : Nat → Nat → List CtxMsg → ChatLoopOut
  | 0, _, msgs =>
    { error := none, rounds := 0, messages := msgs, finalContent := "" }
  | fuel + 1, k, msgs =>
    match env.chat k with
    | .error e =>
      { error := some e, rounds := 1, messages := msgs, finalContent := "" }
    | .ok resp =>
      match resp.toolCalls with
      | [] =>
        { error := none, rounds := 1, messages := msgs,
          finalContent := resp.content }
      | _ :: _ =>
        let msgs' := msgs ++
          (CtxMsg.assistant resp.content
              (resp.toolCalls.map (chatRawToolCall env)) ::
            resp.toolCalls.map fun tc =>
              CtxMsg.tool tc.id tc.name (chatToolResultContent env tc))
        let rest := runChatLoop env fuel (k + 1) msgs'
        { rest with rounds := rest.rounds + 1 }

/-! ## Loop configuration (NewAgentLoop, lines 377-407) -/

/-- The `MaxIterations` derivation in `NewAgentLoop`:
`cfg.Agents.Defaults.MaxToolIterations`, defaulting to 20 when 0.  This
single field bounds BOTH `processMessage` and `processSystemMessage`. -/
def effectiveMaxIterations (maxToolIterations : Nat) : Nat :=
  if maxToolIterations = 0 then 20 else maxToolIterations

/-- The round budget the main turn loop runs under
(`for iteration < l.MaxIterations`, line 517). -/
def mainLoopBudget (maxToolIterations : Nat) : Nat :=
  effectiveMaxIterations maxToolIterations

/-- The round budget `processSystemMessage` runs under: the very same
`l.MaxIterations` field (`for iteration < l.MaxIterations`, line 56). -/
def systemLoopBudget (maxToolIterations : Nat) : Nat :=
  effectiveMaxIterations maxToolIterations

/-- The round budget of a subagent run (`maxIterations := 15`,
line 217). -/
def subagentBudget : Nat := 15

/-! ## System/announcement turn handling (processSystemMessage, lines 14-110) -/

/-- Source `bus.InboundMessage`, restricted to the fields the handlers
read. -/
structure InboundMessage where
  channel : String
  senderId : String
  chatId : String
  content : String
  media : List String
  deriving Repr, DecidableEq

/-- Source `bus.OutboundMessage`, restricted to the fields the handlers
write; a message carries finished `content` or a live stream, never both
(`stream = true` marks the stream-carrying publication of the main
loop). -/
structure OutboundMessage where
  channel : String
  chatId : String
  content : String
  stream : Bool
  deriving Repr, DecidableEq

/-- Splitting a string at its first colon, i.e. Go
`strings.SplitN(s, ":", 2)` restricted to the two parts. -/
def splitFirstColonAux : List Char → List Char × List Char
  | [] => ([], [])
  | c :: rest =>
    if c = ':' then ([], rest)
    else
      let p := splitFirstColonAux rest
      (c :: p.1, p.2)

/-- Origin resolution of `processSystemMessage` (lines 17-26): a chat id
containing a colon is split at the first colon into
`(originChannel, originChatID)`; otherwise the origin defaults to the
`cli` surface with the chat id unchanged. -/
def parseOrigin (chatId : String) : String × String :=
  if chatId.data.contains ':' then
    let p := splitFirstColonAux chatId.data
    (String.mk p.1, String.mk p.2)
  else ("cli", chatId)

/-- What `processSystemMessage` does with a synthetic inbound message, as
far as the claims observe it: resolve the origin, run the Chat round loop
bounded by `l.MaxIterations`, substitute the fixed fallback for an empty
final content, and publish one outbound message to the resolved origin.
On a provider error the handler returns `LLM error: …` and publishes
nothing.  The handler builds its context with
`BuildMessages(history, msg.Content, nil, …)` — the media argument is
hard-wired `nil`, modelled by the `[]` below. -/
structure SystemTurnOut where
  error : Option String
  rounds : Nat
  outbound : List OutboundMessage
  sessionAppends : List (String × String)
  userContent : UserContent
  deriving Repr, DecidableEq

/-- The reduced announcement handler.  `imageBlock` is the media embedding
boundary of `buildUserContent`; it is passed along only to show that no
media is attached (the media list is `[]`). -/
def processSystemMessage (env : ChatEnv) (imageBlock : String → Option String)
    (maxToolIterations : Nat) (msg : InboundMessage) : SystemTurnOut :=
  let origin := parseOrigin msg.chatId
  let userContent := buildUserContent imageBlock msg.content []
  let out := runChatLoop env (systemLoopBudget maxToolIterations) 0
    [CtxMsg.user userContent]
  match out.error with
  | some e =>
    { error := some ("LLM error: " ++ e), rounds := out.rounds,
      outbound := [], sessionAppends := [], userContent := userContent }
  | none =>
    let finalContent :=
      if out.finalContent = "" then "Background task completed."
      else out.finalContent
    { error := none, rounds := out.rounds,
      outbound := [{ channel := origin.1, chatId := origin.2,
                     content := finalContent, stream := false }],
      sessionAppends :=
        [("user", "[System: " ++ msg.senderId ++ "] " ++ msg.content),
         ("assistant", finalContent)],
      userContent := userContent }

/-! ## Subagent manager (SubagentManager, lines 126-338) -/

/-- A single quote character, used by the `announceResult` report template. -/
def squote : String := String.singleton (Char.ofNat 39)

/-- Source `SubagentManager.announceResult` (lines 283-307): format the
natural-language report and publish ONE synthetic inbound message on the
bus, with channel `system`, sender `subagent`, and the origin encoded as
`originChannel:originChatID` in the chat id. -/
def announceResult (label task result : String)
    (originChannel originChatId : String) (status : String) : InboundMessage :=
  let statusText := if status ≠ "ok" then "failed" else "completed successfully"
  { channel := "system",
    senderId := "subagent",
    chatId := originChannel ++ ":" ++ originChatId,
    content :=
      "[Subagent " ++ squote ++ label ++ squote ++ " " ++ statusText ++ "]\n\nTask: "
        ++ task ++ "\n\nResult:\n" ++ result
        ++ "\n\nSummarize this naturally for the user. Keep it brief (1-2 sentences). Do not mention technical details like \"subagent\" or task IDs.",
    media := [] }

/-- Source `SubagentManager.runSubagent` (lines 186-281), as far as its
announcements are observable: run the bounded (15) Chat loop; on a
provider error announce `Error: …` with status `error`; otherwise
announce the final content (with the fixed fallback when empty) with
status `ok`.  The returned list is every inbound message the run
publishes. -/
def runSubagent (env : ChatEnv) (task label : String)
    (originChannel originChatId : String) : List InboundMessage :=
  let out := runChatLoop env subagentBudget 0
    [CtxMsg.system ("subagent prompt for " ++ task), CtxMsg.user (.text task)]
  match out.error with
  | some e =>
    [announceResult label task ("Error: " ++ e) originChannel originChatId "error"]
  | none =>
    let finalResult :=
      if out.finalContent = "" then
        "Task completed but no final response was generated."
      else out.finalContent
    [announceResult label task finalResult originChannel originChatId "ok"]

/-! ## Session store (pkg/session/manager.go)

`Manager.Save` writes one JSON object per line (a metadata line followed
by one line per message); `Manager.load` scans the file line by line,
skipping empty lines and lines that fail to unmarshal, diverting
`_type == "metadata"` lines into the session metadata and appending every
other object to the message list.  The JSON codec below is a concrete,
executable model of `json.Marshal` / `json.Unmarshal` on the object
shapes the store writes: it escapes the characters that could break the
line structure and round-trips every object. -/

/-- JSON string escaping for one character. -/
def escapeChar (c : Char) : List Char :=
  if c = '"' then ['\\', '"']
  else if c = '\\' then ['\\', '\\']
  else if c = '\n' then ['\\', 'n']
  else if c = '\r' then ['\\', 'r']
  else if c = '\t' then ['\\', 't']
  else [c]

/-- JSON string escaping of a character list. -/
def escapeList : List Char → List Char
  | [] => []
  | c :: rest => escapeChar c ++ escapeList rest

/-- A JSON string literal, quotes included. -/
def encodeString (s : String) : List Char :=
  '"' :: (escapeList s.data ++ ['"'])

/-- Inverse of `escapeChar` on the character after a backslash. -/
def unescapeChar (c : Char) : Option Char :=
  if c = '"' then some '"'
  else if c = '\\' then some '\\'
  else if c = 'n' then some '\n'
  else if c = 'r' then some '\r'
  else if c = 't' then some '\t'
  else none

/-- Parser for the body of a JSON string literal (the opening quote
already consumed); returns the decoded characters and the input after the
closing quote. -/
def parseStringBody : List Char → Option (List Char × List Char)
  | [] => none
  | c :: rest =>
    if c = '"' then some ([], rest)
    else if c = '\\' then
      match rest with
      | [] => none
      | e :: rest2 =>
        match unescapeChar e, parseStringBody rest2 with
        | some u, some (s, r) => some (u :: s, r)
        | _, _ => none
    else
      match parseStringBody rest with
      | some (s, r) => some (c :: s, r)
      | none => none

/-- Encoding of the comma-separated fields of a flat string object. -/
def encodeStrFields : List (String × String) → List Char
  | [] => []
  | [(k, v)] => encodeString k ++ ':' :: encodeString v
  | (k, v) :: rest => encodeString k ++ ':' :: encodeString v ++ ',' :: encodeStrFields rest

/-- Encoding of a JSON value. -/
def encodeJVal : JVal → List Char
  | .str s => encodeString s
  | .obj fields => '{' :: (encodeStrFields fields ++ ['}'])

/-- Encoding of the comma-separated fields of a top-level object. -/
def encodeFields : List (String × JVal) → List Char
  | [] => []
  | [(k, v)] => encodeString k ++ ':' :: encodeJVal v
  | (k, v) :: rest => encodeString k ++ ':' :: encodeJVal v ++ ',' :: encodeFields rest

/-- Encoding of a top-level JSON object. -/
def encodeObj (o : JObj) : List Char :=
  '{' :: (encodeFields o ++ ['}'])

/-- String form of an encoded object (one line of the session file). -/
def encodeObjString (o : JObj) : String := String.mk (encodeObj o)

/-- Parser for the fields of a flat string object, positioned at the
start of the first key; `fuel` bounds the number of pairs. -/
def parseStrPairs : Nat → List Char → Option (List (String × String) × List Char)
  | 0, _ => none
  | fuel + 1, '"' :: rest =>
    match parseStringBody rest with
    | some (k, r1) =>
      match r1 with
      | ':' :: '"' :: r2 =>
        match parseStringBody r2 with
        | some (v, r3) =>
          match r3 with
          | ',' :: r4 =>
            match parseStrPairs fuel r4 with
            | some (ps, r) => some ((String.mk k, String.mk v) :: ps, r)
            | none => none
          | '}' :: r4 => some ([(String.mk k, String.mk v)], r4)
          | _ => none
        | none => none
      | _ => none
    | none => none
  | _, _ => none

/-- Parser for one JSON value: a string literal or a flat string
object. -/
def parseJVal (l : List Char) : Option (JVal × List Char) :=
  match l with
  | '"' :: rest =>
    match parseStringBody rest with
    | some (s, r) => some (.str (String.mk s), r)
    | none => none
  | '{' :: '}' :: r => some (.obj [], r)
  | '{' :: rest =>
    match parseStrPairs (rest.length + 1) rest with
    | some (ps, r) => some (.obj ps, r)
    | none => none
  | _ => none

/-- Parser for the fields of a top-level object, positioned at the start
of the first key; `fuel` bounds the number of pairs. -/
def parsePairs : Nat → List Char → Option (List (String × JVal) × List Char)
  | 0, _ => none
  | fuel + 1, '"' :: rest =>
    match parseStringBody rest with
    | some (k, r1) =>
      match r1 with
      | ':' :: r2 =>
        match parseJVal r2 with
        | some (v, r3) =>
          match r3 with
          | ',' :: r4 =>
            match parsePairs fuel r4 with
            | some (ps, r) => some ((String.mk k, v) :: ps, r)
            | none => none
          | '}' :: r4 => some ([(String.mk k, v)], r4)
          | _ => none
        | none => none
      | _ => none
    | none => none
  | _, _ => none

/-- Unmarshalling of one line into an object: the whole line must be a
single JSON object. -/
def decodeLine (l : List Char) : Option JObj :=
  match l with
  | '{' :: '}' :: r => if r = [] then some [] else none
  | '{' :: rest =>
    match parsePairs (rest.length + 1) rest with
    | some (ps, r) => if r = [] then some ps else none
    | none => none
  | _ => none

/-- Source `session.Session`, with timestamps kept in their
RFC3339-formatted string form (formatting and parsing of times is an
external boundary that the message round-trip never looks at). -/
structure GoSession where
  key : String
  messages : List JObj
  createdAt : String
  updatedAt : String
  metadata : List (String × String)
  deriving Repr, DecidableEq

/-- Source `NewSession`. -/
def newSession (key now : String) : GoSession :=
  { key := key, messages := [], createdAt := now, updatedAt := now,
    metadata := [] }

/-- Go map insertion (`msg[k] = v`): overwrite an existing key, else
append. -/
def objInsert (o : JObj) (k : String) (v : JVal) : JObj :=
  if (o.lookup k).isSome then
    o.map fun p => if p.1 = k then (k, v) else p
  else o ++ [(k, v)]

/-- Source `Session.AddMessage` (manager.go 34-45): build the
role/content/timestamp map, overlay the `extra` entries, and append.
`ts` is the `time.Now()` formatting. -/
def sessionAddMessage (s : GoSession) (role content : String) (extra : JObj)
    (ts : String) : GoSession :=
  let base : JObj :=
    [("role", .str role), ("content", .str content), ("timestamp", .str ts)]
  let msg := extra.foldl (fun m p => objInsert m p.1 p.2) base
  { s with messages := s.messages ++ [msg], updatedAt := ts }

/-- The metadata line `Save` writes first (manager.go 163-171). -/
def metaLine (s : GoSession) : JObj :=
  [("_type", .str "metadata"), ("created_at", .str s.createdAt),
   ("updated_at", .str s.updatedAt), ("metadata", .obj s.metadata)]

/-- Source `Manager.Save` (manager.go 149-180): the full file content —
the metadata line, then one line per message, each newline-terminated. -/
def saveFileChars (s : GoSession) : List Char :=
  (encodeObj (metaLine s) ++ ['\n']) ++
    (s.messages.map fun m => encodeObj m ++ ['\n']).flatten

/-- The file as a string. -/
def saveFile (s : GoSession) : String := String.mk (saveFileChars s)

/-- Raw newline splitting of the file content.  (The trailing empty
token that a final newline produces is skipped by the load loop's
empty-line check, so splitting at every newline is harmless;
`scanLines` below layers the scanner's token-size bound on top.) -/
def linesAux : List Char → List (List Char)
  | [] => [[]]
  | c :: rest =>
    if c = '\n' then [] :: linesAux rest
    else
      match linesAux rest with
      | [] => [[c]]
      | line :: more => (c :: line) :: more

/-- `bufio.MaxScanTokenSize`: `Manager.load` builds its scanner with
`bufio.NewScanner(file)` and never calls `Buffer`, so its token buffer
is capped at 64 KiB. -/
def maxScanTokenSize : Nat := 65536

/-- UTF-8 byte length of a character list (Go strings and the scanner's
buffer are byte-based, while this model stores characters). -/
def utf8Len (l : List Char) : Nat := (l.map Char.utf8Size).sum

/-- The line sequence `bufio.Scanner` with `ScanLines` actually hands to
the load loop (manager.go 119-121): lines in order, HALTING SILENTLY at
the first line of `maxScanTokenSize` bytes or more — such a line cannot
fit together with its newline in the 64 KiB buffer, so `Scan` returns
false with `ErrTooLong`, which the load loop never checks (`Err` is not
consulted); that line and everything after it are dropped. -/
def scanLines (file : List Char) : List (List Char) :=
  (linesAux file).takeWhile fun line => utf8Len line < maxScanTokenSize

/-- Processing of one scanned line by `Manager.load` (manager.go
121-143): skip empty lines and unparseable lines; divert a line whose
`_type` is the string `"metadata"` into the session metadata (restoring
`metadata` when it is an object and `created_at` when it is a string);
append every other object to the message list. -/
def loadLine (sess : GoSession) (line : List Char) : GoSession :=
  if line = [] then sess
  else
    match decodeLine line with
    | none => sess
    | some data =>
      if data.lookup "_type" = some (.str "metadata") then
        let sess1 :=
          match data.lookup "metadata" with
          | some (.obj m) => { sess with metadata := m }
          | _ => sess
        match data.lookup "created_at" with
        | some (.str c) => { sess1 with createdAt := c }
        | _ => sess1
      else { sess with messages := sess.messages ++ [data] }

/-- Source `Manager.load` (manager.go 110-146) applied to a file
content: fold the scanned lines — subject to the scanner's 64 KiB
token bound — through `loadLine`. -/
def loadSession (key now : String) (file : String) : GoSession :=
  (scanLines file.data).foldl loadLine (newSession key now)

/-! ## Concurrent history mutation (C9 model)

`AgentLoop.Run` (loop_system.go 442-461) hands every inbound message to
its own goroutine; two messages with the same session key obtain the same
`*Session` from `Manager.GetOrCreate` (the manager mutex guards only the
cache lookup).  `Session.AddMessage` (manager.go 34-45) then mutates the
shared `s.Messages` slice with NO lock: the statement
`s.Messages = append(s.Messages, msg)` is a read of the slice header
followed by a write of the new one.  The machine below makes exactly that
read/write pair explicit and lets a scheduler interleave two handlers. -/

/-- One turn handler as a mutator of the shared history: the turn
contents it still has to append, and the snapshot register of an append
in progress (`none` = the next step is the read). -/
structure RaceThread where
  pending : List String
  reg : Option (List String)
  deriving Repr, DecidableEq

/-- The shared session plus the two concurrently-running handlers for the
same session key. -/
structure RaceState where
  shared : List String
  t1 : RaceThread
  t2 : RaceThread
  deriving Repr, DecidableEq

/-- One atomic step of a thread against the shared slice: a finished
thread does nothing; otherwise the thread either reads the shared
history into its register, or writes back its register extended by the
next turn (the two halves of the unsynchronized `append`). -/
def threadStep (t : RaceThread) (shared : List String) :
    RaceThread × List String :=
  match t.pending, t.reg with
  | [], _ => (t, shared)
  | _ :: _, none => ({ t with reg := some shared }, shared)
  | m :: rest, some snap => ({ pending := rest, reg := none }, snap ++ [m])

/-- One scheduler step: `true` steps handler 1, `false` steps handler 2. -/
def raceStep (st : RaceState) (pick : Bool) : RaceState :=
  if pick then
    let p := threadStep st.t1 st.shared
    { st with t1 := p.1, shared := p.2 }
  else
    let p := threadStep st.t2 st.shared
    { st with t2 := p.1, shared := p.2 }

/-- Run a whole schedule. -/
def runSchedule (sched : List Bool) (st : RaceState) : RaceState :=
  sched.foldl raceStep st

/-- Initial state: empty shared history, each handler about to append its
user turn and its assistant turn (processMessage lines 652-653). -/
def raceInit (u1 a1 u2 a2 : String) : RaceState :=
  { shared := [],
    t1 := { pending := [u1, a1], reg := none },
    t2 := { pending := [u2, a2], reg := none } }

/-- A handler that has completed both of its appends. -/
def RaceThread.done (t : RaceThread) : Prop := t.pending = [] ∧ t.reg = none

/-! ## The edit_file tool (EditFileTool.Execute, src/unnamed/part_002 168-207)

Go string-search semantics (`strings.Index` / `strings.Contains` /
`strings.Count` with non-overlapping occurrences / `strings.Replace` with
n = 1) over character lists. -/

/-- Go `strings.Index`: position of the first occurrence of `pat` in `s`
(`some 0` for the empty pattern), else `none`. -/
def goIndex (s pat : List Char) : Option Nat :=
  if pat.isPrefixOf s then some 0
  else
    match s with
    | [] => none
    | _ :: t => (goIndex t pat).map (· + 1)

/-- Go `strings.Contains`. -/
def goContains (s pat : List Char) : Bool := (goIndex s pat).isSome

/-- Counting loop for `strings.Count` with a non-empty pattern: count the
first occurrence, then continue after it (non-overlapping). -/
def goCountFuel : Nat → List Char → List Char → Nat
  | 0, _, _ => 0
  | fuel + 1, s, pat =>
    match goIndex s pat with
    | none => 0
    | some i => 1 + goCountFuel fuel (s.drop (i + pat.length)) pat

/-- Go `strings.Count`: `1 + length` for the empty pattern (one instance
before/after every character), else the number of non-overlapping
occurrences. -/
def goCount (s pat : List Char) : Nat :=
  if pat = [] then s.length + 1
  else goCountFuel (s.length + 1) s pat

/-- Go `strings.Replace(s, old, new, 1)`: replace the first occurrence
only (for an empty `old`, insert `new` before the first character). -/
def goReplace1 (s old new : List Char) : List Char :=
  match goIndex s old with
  | none => s
  | some i => s.take i ++ new ++ s.drop (i + old.length)

/-- Outcome of one `edit_file` execution on an existing file: the file
content afterwards, and the Go `(string, error)` pair (`.ok` = `nil`
error). -/
structure EditOutcome where
  fileAfter : List Char
  result : Except String String
  deriving Repr

/-- Source `EditFileTool.Execute` (lines 168-207) on an existing,
readable and writable file `path` with content `content`: the not-found
and ambiguity guards return a message with `nil` error and never write;
only the exactly-once branch rewrites the file, with
`strings.Replace(content, oldText, newText, 1)`. -/
def editFileExecute (path : String) (content oldText newText : List Char) :
    EditOutcome :=
  if ¬ goContains content oldText then
    { fileAfter := content,
      result := .ok "Error: old_text not found in file. Make sure it matches exactly." }
  else
    let count := goCount content oldText
    if count > 1 then
      { fileAfter := content,
        result := .ok ("Warning: old_text appears " ++ toString count ++
          " times. Please provide more context to make it unique.") }
    else
      { fileAfter := goReplace1 content oldText newText,
        result := .ok ("Successfully edited " ++ path) }

/-! ## Concrete instances used by witnesses and counterexamples -/

/-- An interleaved two-index chunk sequence. -/
def exChunksInterleaved : List LLMStreamChunk :=
  [toolChunk 1 "call1" "read_file" "", toolChunk 0 "call0" "exec" "",
   toolChunk 0 "" "" "ab", toolChunk 1 "" "" "uv",
   toolChunk 0 "" "" "cd", toolChunk 1 "" "" "w"]

/-- A content-only chunk sequence. -/
def exChunksContent : List LLMStreamChunk :=
  [contentChunk "Hel", contentChunk "lo", contentChunk "!"]

/-- Two non-empty id fragments and two non-empty name fragments arriving
for the same index. -/
def exChunksTwoIds : List LLMStreamChunk :=
  [toolChunk 0 "a" "first" "", toolChunk 0 "b" "second" ""]

/-- A loop environment whose first round streams one tool call with
unparseable argument text, whose tool execution fails, and whose second
round answers with plain content. -/
def exLoopEnv : LoopEnv :=
  { stream := fun k =>
      if k = 0 then .ok [toolChunk 0 "call0" "mytool" "not json"]
      else .ok [contentChunk "done"],
    parse := fun _ => none,
    marshal := fun _ => "marshalled",
    exec := fun _ _ => .error "boom" }

/-- The tool call `exLoopEnv` reconstructs in its first round. -/
def exLoopCall : ToolCallRequest :=
  { id := "call0", name := "mytool", arguments := [] }

/-- A Chat environment that always asks for another tool round. -/
def exAlwaysToolEnv : ChatEnv :=
  { chat := fun _ =>
      .ok ({ content := "", toolCalls := [⟨"i", "t", []⟩] } : ChatResp),
    marshal := fun _ => "",
    exec := fun _ _ => .ok "r" }

/-- A Chat environment that answers immediately with `R`. -/
def exImmediateEnv : ChatEnv :=
  { chat := fun _ => .ok ({ content := "R", toolCalls := [] } : ChatResp),
    marshal := fun _ => "",
    exec := fun _ _ => .ok "r" }

/-- A Chat environment that answers immediately with `Task done`. -/
def exHandlerEnv : ChatEnv :=
  { chat := fun _ => .ok ({ content := "Task done", toolCalls := [] } : ChatResp),
    marshal := fun _ => "",
    exec := fun _ _ => .ok "r" }

/-- A media-embedding boundary that never produces an image block. -/
def exNoImage : String → Option String := fun _ => none

/-- A synthetic announcement message addressed back to `cli:direct`. -/
def exSystemMsg : InboundMessage :=
  { channel := "system", senderId := "subagent", chatId := "cli:direct",
    content := "report", media := [] }

/-- A session holding one turn whose extra metadata smuggles in a
`_type: metadata` field (what `AddMessage` happily accepts). -/
def exBadSession : GoSession :=
  sessionAddMessage (newSession "cli:direct" "T0") "user" "hi"
    [("_type", JVal.str "metadata")] "T1"

/-- A session holding two ordinary turns. -/
def exGoodSession : GoSession :=
  sessionAddMessage
    (sessionAddMessage (newSession "cli:direct" "T0") "user" "What is 2+2?" [] "T1")
    "assistant" "4" [] "T2"

/-- The lost-update schedule: both handlers read the empty history before
either writes, then both read again before either writes its second
turn. -/
def exRaceSchedule : List Bool :=
  [true, false, true, false, true, false, true, false]

/-- The tool-call fragment of a chunk when it belongs to index `i`. -/
def tcAt (i : Int) (c : LLMStreamChunk) : Option ToolCallChunk :=
  c.toolCall.bind fun tc => if tc.index = i then some tc else none

/-- One step of the per-index accumulator evolution, on the option of an
accumulator: absence is the zero value. -/
def accFoldStep (o : Option ToolCallAcc) (tc : ToolCallChunk) : Option ToolCallAcc :=
  some (accStep (o.getD ToolCallAcc.zero) tc)

instance (cs : List LLMStreamChunk) : Decidable (hasContentFrag cs) :=
  inferInstanceAs (Decidable (∃ c ∈ cs, c.content ≠ ""))

instance (cs : List LLMStreamChunk) : Decidable (hasToolFrag cs) :=
  inferInstanceAs (Decidable (∃ c ∈ cs, c.toolCall ≠ none))

instance (chunks : List LLMStreamChunk) (i : Int) :
    Decidable (receivesIndex chunks i) :=
  inferInstanceAs (Decidable (toolFragsAt chunks i ≠ []))

instance (t : RaceThread) : Decidable t.done :=
  inferInstanceAs (Decidable (t.pending = [] ∧ t.reg = none))

/-! # Theorems

Helper lemmas come first; the claim theorems are named `claimN…`. -/

theorem toolFragsAt_eq (chunks : List LLMStreamChunk) (i : Int) :
    toolFragsAt chunks i = (consumedChunks chunks).filterMap (tcAt i) := rfl

theorem processChunk_acc (st : RoundState) (c : LLMStreamChunk) :
    (processChunk st c).acc =
      match c.toolCall with
      | some tc => accUpdate st.acc tc
      | none => st.acc := by
  cases hc : c.toolCall <;>
    simp only [processChunk, hc] <;> split <;> (try split) <;> rfl

theorem lookup_accUpdate_self (m : List (Int × ToolCallAcc)) (tc : ToolCallChunk) :
    (accUpdate m tc).lookup tc.index =
      some (accStep ((m.lookup tc.index).getD ToolCallAcc.zero) tc) := by
  induction m with
  | nil => simp [accUpdate, List.lookup]
  | cons p rest ih =>
    obtain ⟨k, a⟩ := p
    by_cases h : k = tc.index
    · subst h
      simp [accUpdate, List.lookup]
    · have hk : (tc.index == k) = false := beq_eq_false_iff_ne.2 (Ne.symm h)
      simp [accUpdate, h, List.lookup, hk, ih]

theorem lookup_accUpdate_other (m : List (Int × ToolCallAcc)) (tc : ToolCallChunk)
    (i : Int) (hi : i ≠ tc.index) :
    (accUpdate m tc).lookup i = m.lookup i := by
  have hit : (i == tc.index) = false := beq_eq_false_iff_ne.2 hi
  induction m with
  | nil => simp [accUpdate, List.lookup, hit]
  | cons p rest ih =>
    obtain ⟨k, a⟩ := p
    by_cases h : k = tc.index
    · subst h
      simp [accUpdate, List.lookup, hit]
    · by_cases h2 : i = k
      · subst h2
        simp [accUpdate, h, List.lookup]
      · have hik : (i == k) = false := beq_eq_false_iff_ne.2 h2
        simp [accUpdate, h, List.lookup, hik, ih]

theorem lookup_foldl_acc (cs : List LLMStreamChunk) (st : RoundState) (i : Int) :
    ((cs.foldl processChunk st).acc).lookup i =
      (cs.filterMap (tcAt i)).foldl accFoldStep (st.acc.lookup i) := by
  induction cs generalizing st with
  | nil => rfl
  | cons c rest ih =>
    rw [List.foldl_cons, ih]
    cases hc : c.toolCall with
    | none =>
      simp [List.filterMap_cons, tcAt, hc, processChunk_acc]
    | some tc =>
      by_cases hi : tc.index = i
      · subst hi
        simp [List.filterMap_cons, tcAt, hc, processChunk_acc,
          lookup_accUpdate_self, accFoldStep]
      · simp [List.filterMap_cons, tcAt, hc, hi, processChunk_acc,
          lookup_accUpdate_other _ _ _ (Ne.symm hi)]

theorem join_cons (s : String) (rest : List String) :
    String.join (s :: rest) = s ++ String.join rest := by
  apply String.ext
  simp [String.join_eq, String.data_append]

theorem foldl_accFoldStep_some (tcs : List ToolCallChunk) (a : ToolCallAcc) :
    tcs.foldl accFoldStep (some a) = some (tcs.foldl accStep a) := by
  induction tcs generalizing a with
  | nil => rfl
  | cons t ts ih => simp [List.foldl_cons, accFoldStep, ih]

theorem foldl_accFoldStep_none (t : ToolCallChunk) (ts : List ToolCallChunk) :
    (t :: ts).foldl accFoldStep none =
      some ((t :: ts).foldl accStep ToolCallAcc.zero) := by
  simp [List.foldl_cons, accFoldStep, foldl_accFoldStep_some]

theorem accStep_args (a : ToolCallAcc) (tc : ToolCallChunk) :
    (accStep a tc).args = a.args ++ tc.arguments := by
  by_cases h : tc.arguments = "" <;> simp [accStep, h]

theorem accStep_id (a : ToolCallAcc) (tc : ToolCallChunk) :
    (accStep a tc).id = if tc.id ≠ "" then tc.id else a.id := rfl

theorem accStep_name (a : ToolCallAcc) (tc : ToolCallChunk) :
    (accStep a tc).name = if tc.name ≠ "" then tc.name else a.name := rfl

theorem foldl_accStep_args (tcs : List ToolCallChunk) (a : ToolCallAcc) :
    (tcs.foldl accStep a).args = a.args ++ String.join (tcs.map (·.arguments)) := by
  induction tcs generalizing a with
  | nil => simp [String.append_empty, String.join]
  | cons t ts ih =>
    simp [List.foldl_cons, ih, accStep_args, join_cons, String.append_assoc]

theorem foldl_accStep_id (tcs : List ToolCallChunk) (a : ToolCallAcc) :
    (tcs.foldl accStep a).id =
      (tcs.map (·.id)).foldl (fun cur s => if s ≠ "" then s else cur) a.id := by
  induction tcs generalizing a with
  | nil => rfl
  | cons t ts ih => simp [List.foldl_cons, ih, accStep_id]

theorem foldl_accStep_name (tcs : List ToolCallChunk) (a : ToolCallAcc) :
    (tcs.foldl accStep a).name =
      (tcs.map (·.name)).foldl (fun cur s => if s ≠ "" then s else cur) a.name := by
  induction tcs generalizing a with
  | nil => rfl
  | cons t ts ih => simp [List.foldl_cons, ih, accStep_name]

theorem lookup_isSome_iff_mem_keys (m : List (Int × ToolCallAcc)) (i : Int) :
    (m.lookup i).isSome ↔ i ∈ m.map Prod.fst := by
  induction m with
  | nil => simp [List.lookup]
  | cons p rest ih =>
    obtain ⟨k, a⟩ := p
    by_cases h : i = k
    · subst h; simp [List.lookup]
    · have hik : (i == k) = false := beq_eq_false_iff_ne.2 h
      simp [List.lookup, hik, h, ih]

theorem mem_keys_accUpdate (m : List (Int × ToolCallAcc)) (tc : ToolCallChunk)
    (i : Int) :
    i ∈ (accUpdate m tc).map Prod.fst ↔ i ∈ m.map Prod.fst ∨ i = tc.index := by
  induction m with
  | nil => simp [accUpdate]
  | cons p rest ih =>
    obtain ⟨k, a⟩ := p
    by_cases h : k = tc.index
    · subst h; simp [accUpdate]; tauto
    · simp [accUpdate, h, ih]; tauto

theorem nodup_keys_accUpdate (m : List (Int × ToolCallAcc)) (tc : ToolCallChunk)
    (h : (m.map Prod.fst).Nodup) : ((accUpdate m tc).map Prod.fst).Nodup := by
  induction m with
  | nil => simp [accUpdate]
  | cons p rest ih =>
    obtain ⟨k, a⟩ := p
    simp only [List.map_cons, List.nodup_cons] at h
    by_cases hk : k = tc.index
    · subst hk; simpa [accUpdate] using h
    · simp only [accUpdate]
      rw [if_neg hk]
      simp only [List.map_cons, List.nodup_cons]
      refine ⟨fun hmem => ?_, ih h.2⟩
      rcases (mem_keys_accUpdate rest tc k).1 hmem with h1 | h1
      · exact h.1 h1
      · exact hk h1

theorem acc_keys_nodup (cs : List LLMStreamChunk) (st : RoundState)
    (h : (st.acc.map Prod.fst).Nodup) :
    (((cs.foldl processChunk st).acc).map Prod.fst).Nodup := by
  induction cs generalizing st with
  | nil => exact h
  | cons c rest ih =>
    rw [List.foldl_cons]
    apply ih
    rw [processChunk_acc]
    cases hc : c.toolCall with
    | none => exact h
    | some tc => exact nodup_keys_accUpdate st.acc tc h

theorem processChunk_published (st : RoundState) (c : LLMStreamChunk) :
    (processChunk st c).messagePublished =
      if c.content ≠ "" then true else st.messagePublished := by
  by_cases h : c.content = "" <;>
    cases hc : c.toolCall <;>
      by_cases hp : st.messagePublished <;>
        simp [processChunk, h, hc, hp]

theorem processChunk_streamed (st : RoundState) (c : LLMStreamChunk) :
    (processChunk st c).streamed =
      if c.content ≠ "" then st.streamed ++ [c.content] else st.streamed := by
  by_cases h : c.content = "" <;>
    cases hc : c.toolCall <;>
      by_cases hp : st.messagePublished <;>
        simp [processChunk, h, hc, hp]

theorem processChunk_content (st : RoundState) (c : LLMStreamChunk) :
    (processChunk st c).content = st.content ++ c.content := by
  by_cases h : c.content = "" <;>
    cases hc : c.toolCall <;>
      by_cases hp : st.messagePublished <;>
        simp [processChunk, h, hc, hp, String.append_empty]

theorem processChunk_opens (st : RoundState) (c : LLMStreamChunk) :
    (processChunk st c).opens =
      if c.content ≠ "" ∧ st.messagePublished = false then st.opens + 1
      else st.opens := by
  by_cases h : c.content = "" <;>
    cases hc : c.toolCall <;>
      by_cases hp : st.messagePublished <;>
        simp [processChunk, h, hc, hp]

theorem published_foldl (cs : List LLMStreamChunk) (st : RoundState) :
    (cs.foldl processChunk st).messagePublished = true ↔
      st.messagePublished = true ∨ hasContentFrag cs := by
  induction cs generalizing st with
  | nil => simp [hasContentFrag]
  | cons c rest ih =>
    rw [List.foldl_cons, ih, processChunk_published]
    by_cases h : c.content = ""
    · simp only [h, ne_eq, not_true_eq_false, if_neg, not_not, not_false_iff,
        if_false]
      constructor
      · rintro (h1 | h1)
        · exact Or.inl h1
        · exact Or.inr (by
            obtain ⟨x, hx, hxc⟩ := h1
            exact ⟨x, List.mem_cons_of_mem _ hx, hxc⟩)
      · rintro (h1 | ⟨x, hx, hxc⟩)
        · exact Or.inl h1
        · rcases List.mem_cons.1 hx with rfl | hx2
          · exact absurd h hxc
          · exact Or.inr ⟨x, hx2, hxc⟩
    · simp only [h, ne_eq, not_false_iff, if_pos, if_true]
      constructor
      · intro _
        exact Or.inr ⟨c, List.mem_cons_self c rest, h⟩
      · intro _
        left
        trivial

theorem join_append (l₁ l₂ : List String) :
    String.join (l₁ ++ l₂) = String.join l₁ ++ String.join l₂ := by
  apply String.ext
  simp [String.join_eq, String.data_append]

theorem join_singleton (s : String) : String.join [s] = s := by
  apply String.ext
  simp [String.join_eq]

theorem openInv_foldl (cs : List LLMStreamChunk) (st : RoundState)
    (h : st.opens = if st.messagePublished then 1 else 0) :
    (cs.foldl processChunk st).opens =
      if (cs.foldl processChunk st).messagePublished then 1 else 0 := by
  induction cs generalizing st with
  | nil => exact h
  | cons c rest ih =>
    rw [List.foldl_cons]
    apply ih
    rw [processChunk_opens, processChunk_published]
    by_cases hc : c.content = "" <;>
      by_cases hp : st.messagePublished <;>
        simp [hc, hp] <;> simpa [hp] using h

theorem streamInv_foldl (cs : List LLMStreamChunk) (st : RoundState)
    (h : String.join st.streamed = st.content) :
    String.join (cs.foldl processChunk st).streamed =
      (cs.foldl processChunk st).content := by
  induction cs generalizing st with
  | nil => exact h
  | cons c rest ih =>
    rw [List.foldl_cons]
    apply ih
    rw [processChunk_streamed, processChunk_content]
    by_cases hc : c.content = ""
    · simp [hc, String.append_empty, h]
    · simp only [hc, ne_eq, not_false_iff, if_pos]
      rw [join_append, join_singleton, h]

theorem content_foldl (cs : List LLMStreamChunk) (st : RoundState) :
    (cs.foldl processChunk st).content =
      st.content ++ String.join (cs.map (·.content)) := by
  induction cs generalizing st with
  | nil => simp [String.join, String.append_empty]
  | cons c rest ih =>
    rw [List.foldl_cons, ih, processChunk_content]
    simp only [List.map_cons]
    rw [join_cons, String.append_assoc]

theorem runRound_acc_lookup (chunks : List LLMStreamChunk) (i : Int) :
    ((runRound chunks).acc).lookup i = (toolFragsAt chunks i).foldl accFoldStep none := by
  rw [runRound, lookup_foldl_acc, toolFragsAt_eq]
  rfl

theorem runRound_lookup_none_iff (chunks : List LLMStreamChunk) (i : Int) :
    ((runRound chunks).acc).lookup i = none ↔ toolFragsAt chunks i = [] := by
  rw [runRound_acc_lookup]
  cases h : toolFragsAt chunks i with
  | nil => simp
  | cons t ts =>
    rw [foldl_accFoldStep_none]
    simp

theorem runRound_lookup_of_frags (chunks : List LLMStreamChunk) (i : Int)
    (h : toolFragsAt chunks i ≠ []) :
    ((runRound chunks).acc).lookup i =
      some ((toolFragsAt chunks i).foldl accStep ToolCallAcc.zero) := by
  rw [runRound_acc_lookup]
  cases hf : toolFragsAt chunks i with
  | nil => exact absurd hf h
  | cons t ts => rw [foldl_accFoldStep_none]

theorem runRound_mem_keys_iff (chunks : List LLMStreamChunk) (i : Int) :
    i ∈ ((runRound chunks).acc).map Prod.fst ↔ receivesIndex chunks i := by
  rw [← lookup_isSome_iff_mem_keys]
  rw [receivesIndex]
  constructor
  · intro h hf
    rw [runRound_acc_lookup, hf] at h
    simp [List.foldl_nil] at h
  · intro h
    rw [runRound_lookup_of_frags chunks i h]
    rfl

theorem runRound_keys_nodup (chunks : List LLMStreamChunk) :
    (((runRound chunks).acc).map Prod.fst).Nodup := by
  rw [runRound]
  exact acc_keys_nodup _ _ (by simp [RoundState.init])

theorem sortedIndices_sorted (m : List (Int × ToolCallAcc)) :
    (sortedIndices m).Sorted (· ≤ ·) :=
  List.sorted_insertionSort _ _

theorem mem_sortedIndices (m : List (Int × ToolCallAcc)) (i : Int) :
    i ∈ sortedIndices m ↔ i ∈ m.map Prod.fst :=
  (List.perm_insertionSort _ _).mem_iff

theorem sortedIndices_nodup (m : List (Int × ToolCallAcc))
    (h : (m.map Prod.fst).Nodup) : (sortedIndices m).Nodup :=
  ((List.perm_insertionSort _ _).nodup_iff).2 h

theorem finalizePairs_keys (m : List (Int × ToolCallAcc)) :
    (finalizePairs m).map Prod.fst = sortedIndices m := by
  rw [finalizePairs, List.map_map]
  have h : (Prod.fst ∘ fun i : Int => (i, ((m.lookup i).getD ToolCallAcc.zero)))
      = fun i : Int => i := rfl
  rw [h]
  exact List.map_id' _

/-- C1.  For every finite chunk sequence consumed in one round, and for
all interleavings of tool-call fragments across distinct call indices:
the finalized pairs are in ascending index order with no duplicate index;
exactly the indices that received any fragment appear; and each index's
accumulated argument text is the exact concatenation, in arrival order,
of the argument fragments carried by that index's chunks. -/
theorem claim1_reconstruction (chunks : List LLMStreamChunk) :
    ((finalizePairs (runRound chunks).acc).map Prod.fst).Sorted (· ≤ ·)
    ∧ ((finalizePairs (runRound chunks).acc).map Prod.fst).Nodup
    ∧ (∀ i : Int,
        i ∈ (finalizePairs (runRound chunks).acc).map Prod.fst ↔
          receivesIndex chunks i)
    ∧ ∀ p ∈ finalizePairs (runRound chunks).acc,
        p.2.args = String.join (argFragsAt chunks p.1) := by
  refine ⟨?_, ?_, ?_, ?_⟩
  · rw [finalizePairs_keys]
    exact sortedIndices_sorted _
  · rw [finalizePairs_keys]
    exact sortedIndices_nodup _ (runRound_keys_nodup chunks)
  · intro i
    rw [finalizePairs_keys, mem_sortedIndices]
    exact runRound_mem_keys_iff chunks i
  · intro p hp
    rw [finalizePairs] at hp
    obtain ⟨i, hi, rfl⟩ := List.mem_map.1 hp
    have hmem : i ∈ ((runRound chunks).acc).map Prod.fst :=
      (mem_sortedIndices _ i).1 hi
    have hfrags : toolFragsAt chunks i ≠ [] :=
      (runRound_mem_keys_iff chunks i).1 hmem
    rw [runRound_lookup_of_frags chunks i hfrags]
    simp only [Option.getD_some]
    rw [foldl_accStep_args]
    have : ToolCallAcc.zero.args = "" := rfl
    rw [this, String.empty_append]
    rfl

/-- Witness for C1 at a concrete interleaving of two indices. -/
theorem claim1_witness :
    ((0 : Int), ({ id := "call0", name := "exec", args := "abcd" } : ToolCallAcc))
        ∈ finalizePairs (runRound exChunksInterleaved).acc
    ∧ ({ id := "call0", name := "exec", args := "abcd" } : ToolCallAcc).args =
        String.join (argFragsAt exChunksInterleaved 0) := by
  refine ⟨by decide, ?_⟩
  exact (claim1_reconstruction exChunksInterleaved).2.2.2
    ((0 : Int), ({ id := "call0", name := "exec", args := "abcd" } : ToolCallAcc))
    (by decide)

theorem runRound_opens_eq (chunks : List LLMStreamChunk) :
    (runRound chunks).opens =
      if hasContentFrag (consumedChunks chunks) then 1 else 0 := by
  have hinv := openInv_foldl (consumedChunks chunks) RoundState.init (by rfl)
  have hpub := published_foldl (consumedChunks chunks) RoundState.init
  rw [runRound]
  rw [hinv]
  by_cases h : hasContentFrag (consumedChunks chunks)
  · have : ((consumedChunks chunks).foldl processChunk RoundState.init).messagePublished = true := by
      rw [hpub]
      exact Or.inr h
    rw [this]
    simp [h]
  · have : ¬ (((consumedChunks chunks).foldl processChunk RoundState.init).messagePublished = true) := by
      rw [hpub]
      rintro (h1 | h1)
      · exact Bool.false_ne_true h1
      · exact h h1
    rw [Bool.not_eq_true] at this
    rw [this]
    simp [h]

/-- C2.  Per round: at most one outbound stream is opened; it is opened
exactly when the round receives a (non-empty) content fragment, and
already after the prefix that ends with the first content fragment; a
round whose consumed chunks carry no content fragment opens no stream;
the per-round stream channel is closed exactly once; and the pushed
fragments concatenate to the round's accumulated content, which is the
model's full content for the round. -/
theorem claim2_streaming (chunks : List LLMStreamChunk) :
    (runRound chunks).opens ≤ 1
    ∧ ((runRound chunks).opens = 1 ↔ hasContentFrag (consumedChunks chunks))
    ∧ ((¬ hasContentFrag (consumedChunks chunks)) → (runRound chunks).opens = 0)
    ∧ (∀ n : Nat, (runRound (chunks.take n)).opens =
        if hasContentFrag (consumedChunks (chunks.take n)) then 1 else 0)
    ∧ roundStreamCloses chunks = 1
    ∧ String.join (runRound chunks).streamed = (runRound chunks).content
    ∧ (runRound chunks).content = fullContent chunks := by
  refine ⟨?_, ?_, ?_, ?_, rfl, ?_, ?_⟩
  · rw [runRound_opens_eq]
    split <;> omega
  · rw [runRound_opens_eq]
    split <;> rename_i h
    · simpa using h
    · simpa using h
  · intro h
    rw [runRound_opens_eq]
    simp [h]
  · intro n
    exact runRound_opens_eq (chunks.take n)
  · rw [runRound]
    exact streamInv_foldl _ _ rfl
  · rw [runRound, fullContent, content_foldl]
    exact String.empty_append _

/-- Witness for C2 at a content-only chunk sequence: one stream is
opened and its fragments concatenate to the full content. -/
theorem claim2_witness :
    (runRound exChunksContent).opens = 1
    ∧ String.join (runRound exChunksContent).streamed = "Hel" ++ "lo" ++ "!" :=
  ⟨(claim2_streaming exChunksContent).2.1.2 (by decide), by decide⟩

theorem foldl_lastNE (l : List String) (d : String) :
    l.foldl (fun cur s => if s ≠ "" then s else cur) d =
      ((l.filter (fun s => s ≠ "")).getLast?).getD d := by
  induction l generalizing d with
  | nil => rfl
  | cons x xs ih =>
    rw [List.foldl_cons, List.filter_cons]
    by_cases h : x = ""
    · rw [if_neg (by simp [h]), ih]
      have hx : (decide (x ≠ "")) = false := by simp [h]
      rw [hx]
      rfl
    · rw [if_pos (by simp [h]), ih]
      have hx : (decide (x ≠ "")) = true := by simp [h]
      rw [hx]
      simp only [if_true, List.getLast?_cons, Option.getD_some]

theorem lastNonEmpty_eq_getLast (l : List String) :
    lastNonEmpty l = ((l.filter (fun s => s ≠ "")).getLast?).getD "" :=
  foldl_lastNE l ""

/-- C3 (amended).  The reconstructed id and name of every finalized index
are the LAST non-empty id/name fragments that arrived for that index:
each later non-empty value overwrites the earlier one. -/
theorem claim3_last_nonempty (chunks : List LLMStreamChunk) :
    ∀ p ∈ finalizePairs (runRound chunks).acc,
      p.2.id = lastNonEmpty (idFragsAt chunks p.1)
      ∧ p.2.name = lastNonEmpty (nameFragsAt chunks p.1)
      ∧ lastNonEmpty (idFragsAt chunks p.1) =
          (((idFragsAt chunks p.1).filter (fun s => s ≠ "")).getLast?).getD ""
      ∧ lastNonEmpty (nameFragsAt chunks p.1) =
          (((nameFragsAt chunks p.1).filter (fun s => s ≠ "")).getLast?).getD "" := by
  intro p hp
  rw [finalizePairs] at hp
  obtain ⟨i, hi, rfl⟩ := List.mem_map.1 hp
  have hmem : i ∈ ((runRound chunks).acc).map Prod.fst :=
    (mem_sortedIndices _ i).1 hi
  have hfrags : toolFragsAt chunks i ≠ [] :=
    (runRound_mem_keys_iff chunks i).1 hmem
  rw [runRound_lookup_of_frags chunks i hfrags]
  refine ⟨?_, ?_, lastNonEmpty_eq_getLast _, lastNonEmpty_eq_getLast _⟩
  · simp only [Option.getD_some]
    rw [foldl_accStep_id]
    rfl
  · simp only [Option.getD_some]
    rw [foldl_accStep_name]
    rfl

/-- C3 counterexample: when two non-empty id (or name) fragments arrive
for the same index, the reconstruction keeps the SECOND one, not the
first non-empty value the claim asserts. -/
theorem claim3_counterexample :
    ∃ p ∈ finalizePairs (runRound exChunksTwoIds).acc,
      p.2.id ≠ firstNonEmpty (idFragsAt exChunksTwoIds p.1)
      ∧ p.2.name ≠ firstNonEmpty (nameFragsAt exChunksTwoIds p.1) := by
  refine ⟨((0 : Int), ({ id := "b", name := "second", args := "" } : ToolCallAcc)),
    by decide, by decide, by decide⟩

/-- Witness for the amended C3 at the two-fragment sequence. -/
theorem claim3_witness :
    ((0 : Int), ({ id := "b", name := "second", args := "" } : ToolCallAcc))
        ∈ finalizePairs (runRound exChunksTwoIds).acc
    ∧ ({ id := "b", name := "second", args := "" } : ToolCallAcc).id =
        lastNonEmpty (idFragsAt exChunksTwoIds 0) := by
  refine ⟨by decide, ?_⟩
  exact ((claim3_last_nonempty exChunksTwoIds)
    ((0 : Int), ({ id := "b", name := "second", args := "" } : ToolCallAcc))
    (by decide)).1

theorem runIterations_messages_mono (env : LoopEnv) (fuel k : Nat)
    (msgs : List CtxMsg) (fc : String) :
    ∃ suffix, (runIterations env fuel k msgs fc).messages = msgs ++ suffix := by
  induction fuel generalizing k msgs fc with
  | zero => exact ⟨[], by simp [runIterations]⟩
  | succ fuel ih =>
    cases hstream : env.stream k with
    | error e => exact ⟨[], by simp [runIterations, hstream]⟩
    | ok chunks =>
      cases hcalls : finalizeCalls env.parse (runRound chunks).acc with
      | nil => exact ⟨[], by simp [runIterations, hstream, hcalls]⟩
      | cons c cs =>
        obtain ⟨s', hs'⟩ := ih (k + 1)
          (msgs ++ roundAppendix env (runRound chunks).content (c :: cs))
          (runRound chunks).content
        refine ⟨roundAppendix env (runRound chunks).content (c :: cs) ++ s', ?_⟩
        simp only [runIterations, hstream, hcalls]
        rw [hs', List.append_assoc]

theorem runIterations_error_src (env : LoopEnv) (fuel k : Nat)
    (msgs : List CtxMsg) (fc : String) :
    (runIterations env fuel k msgs fc).error = none
    ∨ ∃ e', (∃ j, env.stream j = .error e')
        ∧ (runIterations env fuel k msgs fc).error = some ("LLM error: " ++ e') := by
  induction fuel generalizing k msgs fc with
  | zero => exact Or.inl (by simp [runIterations])
  | succ fuel ih =>
    cases hstream : env.stream k with
    | error e =>
      exact Or.inr ⟨e, ⟨k, hstream⟩, by simp [runIterations, hstream]⟩
    | ok chunks =>
      cases hcalls : finalizeCalls env.parse (runRound chunks).acc with
      | nil => exact Or.inl (by simp [runIterations, hstream, hcalls])
      | cons c cs =>
        have hrec := ih (k + 1)
          (msgs ++ roundAppendix env (runRound chunks).content (c :: cs))
          (runRound chunks).content
        rcases hrec with h1 | ⟨e', hj, h2⟩
        · exact Or.inl (by simp only [runIterations, hstream, hcalls]; exact h1)
        · exact Or.inr ⟨e', hj, by simp only [runIterations, hstream, hcalls]; exact h2⟩

theorem runIterations_rounds_pos (env : LoopEnv) (fuel k : Nat)
    (msgs : List CtxMsg) (fc : String) (h : 1 ≤ fuel) :
    1 ≤ (runIterations env fuel k msgs fc).rounds := by
  cases fuel with
  | zero => omega
  | succ fuel =>
    cases hstream : env.stream k with
    | error e => simp [runIterations, hstream]
    | ok chunks =>
      cases hcalls : finalizeCalls env.parse (runRound chunks).acc with
      | nil => simp [runIterations, hstream, hcalls]
      | cons c cs => simp [runIterations, hstream, hcalls]

theorem runIterations_succ (env : LoopEnv) (fuel k : Nat)
    (msgs : List CtxMsg) (fc : String) :
    runIterations env (fuel + 1) k msgs fc =
      match env.stream k with
      | .error e =>
        { error := some ("LLM error: " ++ e), rounds := 1, messages := msgs,
          finalContent := fc, opens := 0 }
      | .ok chunks =>
        match finalizeCalls env.parse (runRound chunks).acc with
        | [] =>
          { error := none, rounds := 1, messages := msgs,
            finalContent := (runRound chunks).content,
            opens := (runRound chunks).opens }
        | c :: cs =>
          let rest := runIterations env fuel (k + 1)
            (msgs ++ roundAppendix env (runRound chunks).content (c :: cs))
            (runRound chunks).content
          { error := rest.error, rounds := rest.rounds + 1,
            messages := rest.messages, finalContent := rest.finalContent,
            opens := (runRound chunks).opens + rest.opens } := by
  cases hstream : env.stream k with
  | error e => simp [runIterations, hstream]
  | ok chunks =>
    cases hcalls : finalizeCalls env.parse (runRound chunks).acc with
    | nil => simp [runIterations, hstream, hcalls]
    | cons c cs => simp [runIterations, hstream, hcalls]

/-- C4.  A reconstructed tool call whose execution returns an error does
not end the turn: the round appends a tool-result turn carrying the
rendered error text, the loop performs at least one further provider
round when budget remains, and the loop-level error can only ever
originate from a provider `Stream` failure, never from tool
execution. -/
theorem claim4_tool_error_not_fatal
    (env : LoopEnv) (fuel k : Nat) (msgs : List CtxMsg) (fc : String)
    (chunks : List LLMStreamChunk) (tc : ToolCallRequest) (e : String)
    (hfuel : 2 ≤ fuel)
    (hstream : env.stream k = .ok chunks)
    (htc : tc ∈ finalizeCalls env.parse (runRound chunks).acc)
    (hexec : env.exec tc.name tc.arguments = .error e) :
    CtxMsg.tool tc.id tc.name ("Error executing tool: " ++ e)
        ∈ (runIterations env fuel k msgs fc).messages
    ∧ 2 ≤ (runIterations env fuel k msgs fc).rounds
    ∧ ((runIterations env fuel k msgs fc).error = none
       ∨ ∃ e', (∃ j, env.stream j = .error e')
           ∧ (runIterations env fuel k msgs fc).error =
               some ("LLM error: " ++ e')) := by
  obtain ⟨f, rfl⟩ : ∃ f, fuel = f + 1 + 1 := ⟨fuel - 2, by omega⟩
  cases hcalls : finalizeCalls env.parse (runRound chunks).acc with
  | nil => rw [hcalls] at htc; exact absurd htc (List.not_mem_nil tc)
  | cons c cs =>
    rw [hcalls] at htc
    have htoolmsg : CtxMsg.tool tc.id tc.name ("Error executing tool: " ++ e)
        ∈ roundAppendix env (runRound chunks).content (c :: cs) := by
      rw [roundAppendix]
      refine List.mem_cons_of_mem _ ?_
      refine List.mem_map.2 ⟨tc, htc, ?_⟩
      rw [toolResultContent, hexec]
    have hstep : runIterations env (f + 1 + 1) k msgs fc =
        let rest := runIterations env (f + 1) (k + 1)
          (msgs ++ roundAppendix env (runRound chunks).content (c :: cs))
          (runRound chunks).content
        { error := rest.error, rounds := rest.rounds + 1,
          messages := rest.messages, finalContent := rest.finalContent,
          opens := (runRound chunks).opens + rest.opens } := by
      rw [runIterations_succ, hstream]
      simp only [hcalls]
    refine ⟨?_, ?_, ?_⟩
    · rw [hstep]
      obtain ⟨s', hs'⟩ := runIterations_messages_mono env (f + 1) (k + 1)
        (msgs ++ roundAppendix env (runRound chunks).content (c :: cs))
        (runRound chunks).content
      simp only []
      rw [hs']
      exact List.mem_append_left _ (List.mem_append_right _ htoolmsg)
    · rw [hstep]
      have := runIterations_rounds_pos env (f + 1) (k + 1)
        (msgs ++ roundAppendix env (runRound chunks).content (c :: cs))
        (runRound chunks).content (by omega)
      simp only []
      omega
    · exact runIterations_error_src env (f + 1 + 1) k msgs fc

/-- Witness for C4: a concrete turn whose first round calls a failing
tool and whose second round answers normally. -/
theorem claim4_witness :
    CtxMsg.tool "call0" "mytool" ("Error executing tool: " ++ "boom")
        ∈ (runIterations exLoopEnv 2 0 [] "").messages
    ∧ 2 ≤ (runIterations exLoopEnv 2 0 [] "").rounds := by
  have h := claim4_tool_error_not_fatal exLoopEnv 2 0 [] ""
    [toolChunk 0 "call0" "mytool" "not json"] exLoopCall "boom"
    (by omega) (by rfl) (by decide) (by rfl)
  exact ⟨h.1, h.2.1⟩

/-- C8.  A reconstructed call whose accumulated argument text is empty or
rejected by the JSON parse is finalized with the EMPTY argument set — the
call is still produced, its execution still happens and lands in the
normal tool-result channel, and the parse failure never contributes a
loop-level error (errors only ever come from provider failures). -/
theorem claim8_empty_args (env : LoopEnv) (fuel k : Nat) (msgs : List CtxMsg)
    (fc : String) (chunks : List LLMStreamChunk) (p : Int × ToolCallAcc)
    (hfuel : 1 ≤ fuel)
    (hstream : env.stream k = .ok chunks)
    (hp : p ∈ finalizePairs (runRound chunks).acc)
    (hbad : p.2.args = "" ∨ env.parse p.2.args = none) :
    ({ id := p.2.id, name := p.2.name, arguments := [] } : ToolCallRequest)
        ∈ finalizeCalls env.parse (runRound chunks).acc
    ∧ CtxMsg.tool p.2.id p.2.name
        (toolResultContent env
          { id := p.2.id, name := p.2.name, arguments := [] })
        ∈ (runIterations env fuel k msgs fc).messages
    ∧ ((runIterations env fuel k msgs fc).error = none
       ∨ ∃ e', (∃ j, env.stream j = .error e')
           ∧ (runIterations env fuel k msgs fc).error =
               some ("LLM error: " ++ e')) := by
  have hcall : ({ id := p.2.id, name := p.2.name, arguments := [] } : ToolCallRequest)
      ∈ finalizeCalls env.parse (runRound chunks).acc := by
    rw [finalizeCalls]
    refine List.mem_map.2 ⟨p, hp, ?_⟩
    rcases hbad with hb | hb
    · simp [hb]
    · by_cases he : p.2.args = ""
      · simp [he]
      · simp [he, hb]
  refine ⟨hcall, ?_, ?_⟩
  · obtain ⟨f, rfl⟩ : ∃ f, fuel = f + 1 := ⟨fuel - 1, by omega⟩
    cases hcalls : finalizeCalls env.parse (runRound chunks).acc with
    | nil => rw [hcalls] at hcall; exact absurd hcall (List.not_mem_nil _)
    | cons c cs =>
      rw [hcalls] at hcall
      have htoolmsg : CtxMsg.tool p.2.id p.2.name
          (toolResultContent env
            { id := p.2.id, name := p.2.name, arguments := [] })
          ∈ roundAppendix env (runRound chunks).content (c :: cs) := by
        rw [roundAppendix]
        refine List.mem_cons_of_mem _ ?_
        exact List.mem_map.2 ⟨_, hcall, rfl⟩
      have hstep : runIterations env (f + 1) k msgs fc =
          let rest := runIterations env f (k + 1)
            (msgs ++ roundAppendix env (runRound chunks).content (c :: cs))
            (runRound chunks).content
          { error := rest.error, rounds := rest.rounds + 1,
            messages := rest.messages, finalContent := rest.finalContent,
            opens := (runRound chunks).opens + rest.opens } := by
        rw [runIterations_succ, hstream]
        simp only [hcalls]
      rw [hstep]
      obtain ⟨s', hs'⟩ := runIterations_messages_mono env f (k + 1)
        (msgs ++ roundAppendix env (runRound chunks).content (c :: cs))
        (runRound chunks).content
      simp only []
      rw [hs']
      exact List.mem_append_left _ (List.mem_append_right _ htoolmsg)
  · exact runIterations_error_src env fuel k msgs fc

/-- Witness for C8: unparseable argument text yields the empty argument
set, and the call is still executed through the tool-result channel. -/
theorem claim8_witness :
    exLoopCall ∈ finalizeCalls exLoopEnv.parse
        (runRound [toolChunk 0 "call0" "mytool" "not json"]).acc
    ∧ CtxMsg.tool "call0" "mytool" ("Error executing tool: " ++ "boom")
        ∈ (runIterations exLoopEnv 1 0 [] "").messages := by
  have h := claim8_empty_args exLoopEnv 1 0 [] ""
    [toolChunk 0 "call0" "mytool" "not json"]
    ((0 : Int), ({ id := "call0", name := "mytool", args := "not json" } : ToolCallAcc))
    (by omega) (by rfl) (by decide) (Or.inr (by rfl))
  exact ⟨h.1, h.2.1⟩

theorem runChatLoop_rounds_le (env : ChatEnv) (fuel k : Nat) (msgs : List CtxMsg) :
    (runChatLoop env fuel k msgs).rounds ≤ fuel := by
  induction fuel generalizing k msgs with
  | zero => simp [runChatLoop]
  | succ fuel ih =>
    cases hchat : env.chat k with
    | error e => simp [runChatLoop, hchat]
    | ok resp =>
      cases hcalls : resp.toolCalls with
      | nil => simp [runChatLoop, hchat, hcalls]
      | cons c cs =>
        simp only [runChatLoop, hchat, hcalls]
        have := ih (k + 1) (msgs ++
          (CtxMsg.assistant resp.content
              ((c :: cs).map (chatRawToolCall env)) ::
            (c :: cs).map fun tc =>
              CtxMsg.tool tc.id tc.name (chatToolResultContent env tc)))
        omega

theorem processSystemMessage_rounds (env : ChatEnv)
    (imageBlock : String → Option String) (maxToolIterations : Nat)
    (msg : InboundMessage) :
    (processSystemMessage env imageBlock maxToolIterations msg).rounds =
      (runChatLoop env (systemLoopBudget maxToolIterations) 0
        [CtxMsg.user (buildUserContent imageBlock msg.content [])]).rounds := by
  rw [processSystemMessage]
  cases h : (runChatLoop env (systemLoopBudget maxToolIterations) 0
      [CtxMsg.user (buildUserContent imageBlock msg.content [])]).error <;>
    simp [h]

/-- C6 (amended).  The announcement handler runs its round loop capped at
the SAME round budget as the main turn loop — the single `MaxIterations`
field, default 20 — not at a strictly smaller one; and it attaches no
media: its user message is always plain text. -/
theorem claim6_same_budget (maxToolIterations : Nat) (env : ChatEnv)
    (imageBlock : String → Option String) (msg : InboundMessage) :
    (processSystemMessage env imageBlock maxToolIterations msg).rounds ≤
        mainLoopBudget maxToolIterations
    ∧ systemLoopBudget maxToolIterations = mainLoopBudget maxToolIterations
    ∧ (processSystemMessage env imageBlock maxToolIterations msg).userContent
        = .text msg.content := by
  refine ⟨?_, rfl, ?_⟩
  · rw [processSystemMessage_rounds]
    exact runChatLoop_rounds_le _ _ _ _
  · rw [processSystemMessage]
    cases h : (runChatLoop env (systemLoopBudget maxToolIterations) 0
        [CtxMsg.user (buildUserContent imageBlock msg.content [])]).error <;>
      simp [h, buildUserContent]

/-- C6 counterexample: under the default configuration
(`MaxToolIterations = 0`, hence `MaxIterations = 20`) the announcement
handler runs its loop up to 20 rounds — equal to, and NOT strictly
smaller than, the main loop's maximum. -/
theorem claim6_counterexample :
    (processSystemMessage exAlwaysToolEnv exNoImage 0 exSystemMsg).rounds = 20
    ∧ mainLoopBudget 0 = 20
    ∧ ¬ ((processSystemMessage exAlwaysToolEnv exNoImage 0 exSystemMsg).rounds
          < mainLoopBudget 0) := by
  refine ⟨by rfl, rfl, ?_⟩
  intro h
  rw [show (processSystemMessage exAlwaysToolEnv exNoImage 0 exSystemMsg).rounds
      = 20 from rfl] at h
  exact absurd h (by decide)

theorem runChatLoop_ok_error_none (env : ChatEnv) (fuel k : Nat)
    (msgs : List CtxMsg) (h : ∀ j, ∃ r, env.chat j = .ok r) :
    (runChatLoop env fuel k msgs).error = none := by
  induction fuel generalizing k msgs with
  | zero => rfl
  | succ fuel ih =>
    obtain ⟨r, hr⟩ := h k
    cases hcalls : r.toolCalls with
    | nil => simp [runChatLoop, hr, hcalls]
    | cons c cs =>
      simp only [runChatLoop, hr, hcalls]
      exact ih (k + 1) _

theorem splitFirstColonAux_encode (S C : List Char) (hS : ':' ∉ S) :
    splitFirstColonAux (S ++ ':' :: C) = (S, C) := by
  induction S with
  | nil => simp [splitFirstColonAux]
  | cons c rest ih =>
    have hc : c ≠ ':' := fun h => hS (h ▸ List.mem_cons_self c rest)
    have hrest : ':' ∉ rest := fun h => hS (List.mem_cons_of_mem c h)
    simp [splitFirstColonAux, hc, ih hrest]

theorem parseOrigin_encode (S C : String) (hS : ':' ∉ S.data) :
    parseOrigin (S ++ ":" ++ C) = (S, C) := by
  have hdata : (S ++ ":" ++ C).data = S.data ++ ':' :: C.data := by
    simp [String.data_append]
  rw [parseOrigin, hdata]
  have hmem : ':' ∈ S.data ++ ':' :: C.data :=
    List.mem_append_right _ (List.mem_cons_self _ _)
  have hcon : (S.data ++ ':' :: C.data).contains ':' = true :=
    List.elem_eq_true_of_mem hmem
  rw [if_pos hcon, splitFirstColonAux_encode S.data C.data hS]

theorem runSubagent_announces (env : ChatEnv) (task label S C : String) :
    ∃ ann, runSubagent env task label S C = [ann]
      ∧ ann.channel = "system" ∧ ann.senderId = "subagent"
      ∧ ann.chatId = S ++ ":" ++ C := by
  rw [runSubagent]
  cases h : (runChatLoop env subagentBudget 0
      [CtxMsg.system ("subagent prompt for " ++ task),
       CtxMsg.user (.text task)]).error with
  | none =>
    simp only [h]
    exact ⟨_, rfl, rfl, rfl, rfl⟩
  | some e =>
    simp only [h]
    exact ⟨_, rfl, rfl, rfl, rfl⟩

theorem processSystemMessage_outbound (env : ChatEnv)
    (imageBlock : String → Option String) (maxToolIterations : Nat)
    (msg : InboundMessage) (h : ∀ j, ∃ r, env.chat j = .ok r) :
    ∃ fc, (processSystemMessage env imageBlock maxToolIterations msg).outbound =
      [⟨(parseOrigin msg.chatId).1, (parseOrigin msg.chatId).2, fc, false⟩] := by
  rw [processSystemMessage]
  have herr := runChatLoop_ok_error_none env (systemLoopBudget maxToolIterations) 0
    [CtxMsg.user (buildUserContent imageBlock msg.content [])] h
  simp only [herr]
  exact ⟨_, rfl⟩

/-- C7 (amended).  A finished or failed subagent run publishes exactly
one synthetic inbound message, on channel `system`, with the origin
encoded as `S:C` in the chat id; and — provided the origin surface name
`S` contains no colon — the announcement handler resolves that composite
back to exactly `(S, C)` and publishes its single outbound message there,
hence not to `system` whenever `S` itself is not `system`. -/
theorem claim7_announce_roundtrip (env1 env2 : ChatEnv)
    (imageBlock : String → Option String) (maxToolIterations : Nat)
    (task label S C : String) (hS : ':' ∉ S.data)
    (h2 : ∀ j, ∃ r, env2.chat j = .ok r) :
    ∃ ann fc, runSubagent env1 task label S C = [ann]
      ∧ ann.channel = "system"
      ∧ ann.chatId = S ++ ":" ++ C
      ∧ (processSystemMessage env2 imageBlock maxToolIterations ann).outbound =
          [⟨S, C, fc, false⟩]
      ∧ (S ≠ "system" →
          ∀ ob ∈ (processSystemMessage env2 imageBlock maxToolIterations ann).outbound,
            ob.channel ≠ "system") := by
  obtain ⟨ann, hrun, hch, hsend, hchat⟩ := runSubagent_announces env1 task label S C
  obtain ⟨fc, hout⟩ := processSystemMessage_outbound env2 imageBlock
    maxToolIterations ann h2
  rw [hchat, parseOrigin_encode S C hS] at hout
  refine ⟨ann, fc, hrun, hch, hchat, hout, ?_⟩
  intro hne ob hob
  rw [hout] at hob
  rcases List.mem_singleton.1 hob with rfl
  exact hne

/-- C7 counterexample: with an origin surface that itself contains a
colon (`S = "a:b"`, `C = "c"`), the handler mis-splits the composite
`a:b:c` and addresses its outbound message to surface `a`, conversation
`b:c` — not to `(S, C)` as the claim asserts. -/
theorem claim7_counterexample :
    ∃ ann, runSubagent exImmediateEnv "t" "l" "a:b" "c" = [ann]
      ∧ ann.channel = "system"
      ∧ ann.chatId = "a:b:c"
      ∧ (processSystemMessage exHandlerEnv exNoImage 0 ann).outbound =
          [⟨"a", "b:c", "Task done", false⟩]
      ∧ (∀ ob ∈ (processSystemMessage exHandlerEnv exNoImage 0 ann).outbound,
          ob.channel ≠ "a:b" ∧ ob.chatId ≠ "c") := by
  refine ⟨announceResult "l" "t" "R" "a:b" "c" "ok", by rfl, rfl, rfl, by rfl, ?_⟩
  intro ob hob
  have heq : ob = (⟨"a", "b:c", "Task done", false⟩ : OutboundMessage) := by
    have h : (processSystemMessage exHandlerEnv exNoImage 0
        (announceResult "l" "t" "R" "a:b" "c" "ok")).outbound =
        [⟨"a", "b:c", "Task done", false⟩] := by rfl
    rw [h] at hob
    exact List.mem_singleton.1 hob
  rw [heq]
  exact ⟨by decide, by decide⟩

/-- Witness for the amended C7, at the spec's own end-to-end scenario:
origin `telegram:123`. -/
theorem claim7_witness :
    ∃ ann fc, runSubagent exImmediateEnv "t" "l" "telegram" "123" = [ann]
      ∧ ann.channel = "system"
      ∧ ann.chatId = "telegram" ++ ":" ++ "123"
      ∧ (processSystemMessage exHandlerEnv exNoImage 0 ann).outbound =
          [⟨"telegram", "123", fc, false⟩] := by
  obtain ⟨ann, fc, h1, h2, h3, h4, _⟩ := claim7_announce_roundtrip
    exImmediateEnv exHandlerEnv exNoImage 0 "t" "l" "telegram" "123"
    (by decide) (fun j => ⟨_, rfl⟩)
  exact ⟨ann, fc, h1, h2, h3, h4⟩

/-- C9 (code bug, evaluated at the failing schedule).  Two turn handlers
for the same session key, each appending its user turn and its assistant
turn through the unsynchronized `Session.AddMessage`, can interleave
their read/write pairs so that both complete yet the shared history holds
2 turns instead of 2 + 2: the appends of the first handler are lost.  The
claim (and §5 of the spec) requires this to be impossible. -/
theorem claim9_lost_update :
    (runSchedule exRaceSchedule (raceInit "u1" "a1" "u2" "a2")).t1.done
    ∧ (runSchedule exRaceSchedule (raceInit "u1" "a1" "u2" "a2")).t2.done
    ∧ (runSchedule exRaceSchedule (raceInit "u1" "a1" "u2" "a2")).shared
        = ["u2", "a2"]
    ∧ (runSchedule exRaceSchedule (raceInit "u1" "a1" "u2" "a2")).shared.length
        ≠ 2 + 2 := by
  refine ⟨by decide, by decide, by decide, by decide⟩

theorem isPrefixOf_exists (pat s : List Char) (h : pat.isPrefixOf s = true) :
    ∃ t, s = pat ++ t := by
  induction pat generalizing s with
  | nil => exact ⟨s, rfl⟩
  | cons a as ih =>
    cases s with
    | nil => simp [List.isPrefixOf] at h
    | cons b bs =>
      simp only [List.isPrefixOf, Bool.and_eq_true, beq_iff_eq] at h
      obtain ⟨t, ht⟩ := ih bs h.2
      refine ⟨t, ?_⟩
      rw [h.1, ht, List.cons_append]

theorem goIndex_decomp (s pat : List Char) (i : Nat) (h : goIndex s pat = some i) :
    s.take i ++ pat ++ s.drop (i + pat.length) = s ∧ i + pat.length ≤ s.length := by
  induction s generalizing i with
  | nil =>
    unfold goIndex at h
    by_cases hp : pat.isPrefixOf ([] : List Char) = true
    · rw [if_pos hp] at h
      injection h with h0
      obtain ⟨t, ht⟩ := isPrefixOf_exists pat [] hp
      have hpat : pat = [] := by
        cases pat with
        | nil => rfl
        | cons x xs => simp at ht
      subst hpat
      rw [← h0]
      simp
    · rw [if_neg hp] at h
      simp at h
  | cons c rest ih =>
    unfold goIndex at h
    by_cases hp : pat.isPrefixOf (c :: rest) = true
    · rw [if_pos hp] at h
      injection h with h0
      obtain ⟨t, ht⟩ := isPrefixOf_exists pat (c :: rest) hp
      rw [← h0]
      constructor
      · rw [List.take_zero, List.nil_append, Nat.zero_add, ht, List.drop_left]
      · rw [ht]
        simp
    · rw [if_neg hp] at h
      obtain ⟨j, hj, rfl⟩ := Option.map_eq_some'.1 h
      obtain ⟨hdec, hlen⟩ := ih j hj
      constructor
      · have ht : (c :: rest).take (j + 1) = c :: rest.take j := rfl
        have hd : (c :: rest).drop (j + 1 + pat.length) =
            rest.drop (j + pat.length) := by
          simp [List.drop_succ_cons, Nat.add_right_comm]
        rw [ht, hd]
        simp only [List.cons_append]
        rw [List.append_assoc] at hdec ⊢
        rw [hdec]
      · simp only [List.length_cons]
        omega

/-- C10.  `edit_file` on an existing file: a content that does not
contain `old_text`, or contains it more than once (in Go's
non-overlapping count), is left completely unchanged with a non-error
textual result; the file is rewritten only in the exactly-once case, and
then exactly that occurrence of `old_text` is replaced by `new_text`. -/
theorem claim10_edit_file (path : String) (content oldText newText : List Char) :
    (goContains content oldText = false →
      (editFileExecute path content oldText newText).fileAfter = content
      ∧ (editFileExecute path content oldText newText).result =
          .ok "Error: old_text not found in file. Make sure it matches exactly.")
    ∧ (goContains content oldText = true → 1 < goCount content oldText →
        (editFileExecute path content oldText newText).fileAfter = content
        ∧ ∃ msg, (editFileExecute path content oldText newText).result = .ok msg)
    ∧ (goContains content oldText = true → goCount content oldText = 1 →
        ∃ pre post, content = pre ++ oldText ++ post
          ∧ (editFileExecute path content oldText newText).fileAfter =
              pre ++ newText ++ post
          ∧ (editFileExecute path content oldText newText).result =
              .ok ("Successfully edited " ++ path)) := by
  refine ⟨?_, ?_, ?_⟩
  · intro h
    constructor <;> simp [editFileExecute, h]
  · intro h hcount
    refine ⟨by simp [editFileExecute, h, hcount], ?_⟩
    refine ⟨"Warning: old_text appears " ++ toString (goCount content oldText) ++
      " times. Please provide more context to make it unique.", ?_⟩
    simp [editFileExecute, h, hcount]
  · intro h hcount
    obtain ⟨i, hi⟩ := Option.isSome_iff_exists.1 (by rw [← goContains]; exact h)
    obtain ⟨hdec, hlen⟩ := goIndex_decomp content oldText i hi
    refine ⟨content.take i, content.drop (i + oldText.length), hdec.symm, ?_, ?_⟩
    · simp [editFileExecute, h, hcount, goReplace1, hi]
    · simp [editFileExecute, h, hcount]

/-- Witness for C10: replacing the unique occurrence of `world`. -/
theorem claim10_witness :
    ∃ pre post,
      "hello world".data = pre ++ "world".data ++ post
      ∧ (editFileExecute "f.txt" "hello world".data "world".data
          "lean".data).fileAfter = pre ++ "lean".data ++ post := by
  obtain ⟨pre, post, h1, h2, _⟩ :=
    (claim10_edit_file "f.txt" "hello world".data "world".data "lean".data).2.2
      (by decide) (by decide)
  exact ⟨pre, post, h1, h2⟩

theorem parseStringBody_quote (rest : List Char) :
    parseStringBody ('"' :: rest) = some ([], rest) := by
  unfold parseStringBody
  simp

theorem parseStringBody_generic (c : Char) (rest : List Char)
    (h1 : c ≠ '"') (h2 : c ≠ '\\') :
    parseStringBody (c :: rest) =
      match parseStringBody rest with
      | some (s, r) => some (c :: s, r)
      | none => none := by
  conv_lhs => rw [parseStringBody.eq_def]
  simp [h1, h2]

theorem parseStringBody_escape (s rest : List Char) :
    parseStringBody (escapeList s ++ ('"' :: rest)) = some (s, rest) := by
  induction s with
  | nil =>
    simp only [escapeList, List.nil_append]
    exact parseStringBody_quote rest
  | cons c cs ih =>
    simp only [escapeList, List.append_assoc]
    by_cases h1 : c = '"'
    · subst h1
      simp [escapeChar, parseStringBody, unescapeChar, ih]
    · by_cases h2 : c = '\\'
      · subst h2
        simp [escapeChar, parseStringBody, unescapeChar, ih]
      · by_cases h3 : c = '\n'
        · subst h3
          simp [escapeChar, parseStringBody, unescapeChar, ih]
        · by_cases h4 : c = '\r'
          · subst h4
            simp [escapeChar, parseStringBody, unescapeChar, ih]
          · by_cases h5 : c = '\t'
            · subst h5
              simp [escapeChar, parseStringBody, unescapeChar, ih]
            · have hch : escapeChar c = [c] := by
                simp [escapeChar, h1, h2, h3, h4, h5]
              rw [hch, List.cons_append, List.nil_append,
                parseStringBody_generic c _ h1 h2, ih]

theorem newline_not_mem_escapeChar (c : Char) : '\n' ∉ escapeChar c := by
  by_cases h1 : c = '"'
  · simp [escapeChar, h1]
  · by_cases h2 : c = '\\'
    · simp [escapeChar, h1, h2]
    · by_cases h3 : c = '\n'
      · simp [escapeChar, h1, h2, h3]
      · by_cases h4 : c = '\r'
        · simp [escapeChar, h1, h2, h3, h4]
        · by_cases h5 : c = '\t'
          · simp [escapeChar, h1, h2, h3, h4, h5]
          · simp [escapeChar, h1, h2, h3, h4, h5]
            exact fun he => h3 he.symm

theorem newline_not_mem_escapeList (s : List Char) : '\n' ∉ escapeList s := by
  induction s with
  | nil => simp [escapeList]
  | cons c cs ih =>
    simp only [escapeList, List.mem_append]
    rintro (h | h)
    · exact newline_not_mem_escapeChar c h
    · exact ih h

theorem newline_not_mem_encodeString (s : String) : '\n' ∉ encodeString s := by
  simp only [encodeString, List.mem_cons, List.mem_append]
  rintro (h | h | h)
  · exact absurd h.symm (by decide)
  · exact newline_not_mem_escapeList s.data h
  · simp at h

theorem newline_not_mem_encodeStrFields (fields : List (String × String)) :
    '\n' ∉ encodeStrFields fields := by
  induction fields with
  | nil => simp [encodeStrFields]
  | cons p fs ih =>
    obtain ⟨k, v⟩ := p
    cases fs with
    | nil =>
      simp only [encodeStrFields, List.mem_append, List.mem_cons]
      rintro (h | h | h)
      · exact newline_not_mem_encodeString k h
      · exact absurd h.symm (by decide)
      · exact newline_not_mem_encodeString v h
    | cons q fs' =>
      simp [encodeStrFields, List.mem_append, List.mem_cons,
        newline_not_mem_encodeString k, newline_not_mem_encodeString v, ih]

theorem newline_not_mem_encodeJVal (v : JVal) : '\n' ∉ encodeJVal v := by
  cases v with
  | str s => exact newline_not_mem_encodeString s
  | obj fields =>
    simp only [encodeJVal, List.mem_cons, List.mem_append]
    rintro (h | h | h)
    · exact absurd h.symm (by decide)
    · exact newline_not_mem_encodeStrFields fields h
    · simp at h

theorem newline_not_mem_encodeFields (o : List (String × JVal)) :
    '\n' ∉ encodeFields o := by
  induction o with
  | nil => simp [encodeFields]
  | cons p fs ih =>
    obtain ⟨k, v⟩ := p
    cases fs with
    | nil =>
      simp only [encodeFields, List.mem_append, List.mem_cons]
      rintro (h | h | h)
      · exact newline_not_mem_encodeString k h
      · exact absurd h.symm (by decide)
      · exact newline_not_mem_encodeJVal v h
    | cons q fs' =>
      simp [encodeFields, List.mem_append, List.mem_cons,
        newline_not_mem_encodeString k, newline_not_mem_encodeJVal v, ih]

theorem newline_not_mem_encodeObj (o : JObj) : '\n' ∉ encodeObj o := by
  simp only [encodeObj, List.mem_cons, List.mem_append]
  rintro (h | h | h)
  · exact absurd h.symm (by decide)
  · exact newline_not_mem_encodeFields o h
  · simp at h

theorem length_encodeStrFields (fields : List (String × String)) :
    fields.length ≤ (encodeStrFields fields).length := by
  induction fields with
  | nil => simp [encodeStrFields]
  | cons p fs ih =>
    obtain ⟨k, v⟩ := p
    cases fs with
    | nil => simp [encodeStrFields, encodeString]
    | cons q fs' =>
      simp only [encodeStrFields, List.length_append, List.length_cons,
        List.length_cons] at ih ⊢
      simp [encodeString]
      omega

theorem length_encodeFields (o : List (String × JVal)) :
    o.length ≤ (encodeFields o).length := by
  induction o with
  | nil => simp [encodeFields]
  | cons p fs ih =>
    obtain ⟨k, v⟩ := p
    cases fs with
    | nil => simp [encodeFields, encodeString]
    | cons q fs' =>
      simp only [encodeFields, List.length_append, List.length_cons] at ih ⊢
      simp [encodeString]
      omega

theorem parseStrPairs_encode (fields : List (String × String)) (rest : List Char)
    (fuel : Nat) (hne : fields ≠ []) (hf : fields.length ≤ fuel) :
    parseStrPairs fuel (encodeStrFields fields ++ ('}' :: rest)) =
      some (fields, rest) := by
  induction fields generalizing rest fuel with
  | nil => exact absurd rfl hne
  | cons p fs ih =>
    obtain ⟨k, v⟩ := p
    obtain ⟨f, rfl⟩ : ∃ f, fuel = f + 1 :=
      ⟨fuel - 1, by simp at hf; omega⟩
    cases fs with
    | nil =>
      have hin : encodeStrFields [(k, v)] ++ '}' :: rest =
          '"' :: (escapeList k.data ++
            ('"' :: (':' :: ('"' :: (escapeList v.data ++
              ('"' :: ('}' :: rest))))))) := by
        simp [encodeStrFields, encodeString, List.append_assoc]
      rw [hin]
      conv_lhs => rw [parseStrPairs.eq_def]
      simp only [parseStringBody_escape]
    | cons q fs' =>
      have hin : encodeStrFields ((k, v) :: q :: fs') ++ '}' :: rest =
          '"' :: (escapeList k.data ++
            ('"' :: (':' :: ('"' :: (escapeList v.data ++
              ('"' :: (',' :: (encodeStrFields (q :: fs') ++
                ('}' :: rest))))))))) := by
        simp [encodeStrFields, encodeString, List.append_assoc]
      rw [hin]
      conv_lhs => rw [parseStrPairs.eq_def]
      simp only [parseStringBody_escape]
      rw [ih rest f (by simp) (by simp at hf ⊢; omega)]

theorem parseJVal_encode (v : JVal) (rest : List Char) :
    parseJVal (encodeJVal v ++ rest) = some (v, rest) := by
  cases v with
  | str s =>
    have hin : encodeJVal (.str s) ++ rest =
        '"' :: (escapeList s.data ++ ('"' :: rest)) := by
      simp [encodeJVal, encodeString, List.append_assoc]
    rw [hin]
    simp [parseJVal, parseStringBody_escape]
  | obj fields =>
    cases fields with
    | nil =>
      have hin : encodeJVal (.obj []) ++ rest = '{' :: '}' :: rest := by
        simp [encodeJVal, encodeStrFields]
      rw [hin]
      simp [parseJVal]
    | cons p fs =>
      obtain ⟨k, w⟩ := p
      obtain ⟨Y, hY⟩ : ∃ Y, encodeStrFields ((k, w) :: fs) = '"' :: Y := by
        cases fs with
        | nil =>
          refine ⟨escapeList k.data ++ '"' :: ':' :: encodeString w, ?_⟩
          simp [encodeStrFields, encodeString, List.append_assoc]
        | cons q fs' =>
          refine ⟨escapeList k.data ++ '"' :: ':' :: encodeString w ++
            ',' :: encodeStrFields (q :: fs'), ?_⟩
          simp [encodeStrFields, encodeString, List.append_assoc]
      have henc : '"' :: (Y ++ ('}' :: rest)) =
          encodeStrFields ((k, w) :: fs) ++ ('}' :: rest) := by
        rw [hY]
        simp
      have hin : encodeJVal (.obj ((k, w) :: fs)) ++ rest =
          '{' :: '"' :: (Y ++ ('}' :: rest)) := by
        simp [encodeJVal, hY, List.append_assoc]
      rw [hin]
      have hred : parseJVal ('{' :: '"' :: (Y ++ ('}' :: rest))) =
          match parseStrPairs (('"' :: (Y ++ ('}' :: rest))).length + 1)
              ('"' :: (Y ++ ('}' :: rest))) with
          | some (ps, r) => some (JVal.obj ps, r)
          | none => none := by
        simp [parseJVal]
      rw [hred, henc]
      have hlen := length_encodeStrFields ((k, w) :: fs)
      simp only [List.length_cons] at hlen
      have hfuel : ((k, w) :: fs).length ≤
          (encodeStrFields ((k, w) :: fs) ++ ('}' :: rest)).length + 1 := by
        simp only [List.length_append, List.length_cons]
        omega
      rw [parseStrPairs_encode ((k, w) :: fs) rest _ (by simp) hfuel]

theorem parsePairs_encode (o : List (String × JVal)) (rest : List Char)
    (fuel : Nat) (hne : o ≠ []) (hf : o.length ≤ fuel) :
    parsePairs fuel (encodeFields o ++ ('}' :: rest)) = some (o, rest) := by
  induction o generalizing rest fuel with
  | nil => exact absurd rfl hne
  | cons p fs ih =>
    obtain ⟨k, v⟩ := p
    obtain ⟨f, rfl⟩ : ∃ f, fuel = f + 1 :=
      ⟨fuel - 1, by simp at hf; omega⟩
    cases fs with
    | nil =>
      have hin : encodeFields [(k, v)] ++ '}' :: rest =
          '"' :: (escapeList k.data ++
            ('"' :: (':' :: (encodeJVal v ++ ('}' :: rest))))) := by
        simp [encodeFields, encodeString, List.append_assoc]
      rw [hin]
      conv_lhs => rw [parsePairs.eq_def]
      simp only [parseStringBody_escape, parseJVal_encode]
    | cons q fs' =>
      have hin : encodeFields ((k, v) :: q :: fs') ++ '}' :: rest =
          '"' :: (escapeList k.data ++
            ('"' :: (':' :: (encodeJVal v ++
              (',' :: (encodeFields (q :: fs') ++ ('}' :: rest))))))) := by
        simp [encodeFields, encodeString, List.append_assoc]
      rw [hin]
      conv_lhs => rw [parsePairs.eq_def]
      simp only [parseStringBody_escape, parseJVal_encode]
      rw [ih rest f (by simp) (by simp at hf ⊢; omega)]

theorem decodeLine_encode (o : JObj) : decodeLine (encodeObj o) = some o := by
  cases o with
  | nil => simp [encodeObj, encodeFields, decodeLine]
  | cons p fs =>
    obtain ⟨k, v⟩ := p
    obtain ⟨Y, hY⟩ : ∃ Y, encodeFields ((k, v) :: fs) = '"' :: Y := by
      cases fs with
      | nil =>
        refine ⟨escapeList k.data ++ '"' :: ':' :: encodeJVal v, ?_⟩
        simp [encodeFields, encodeString, List.append_assoc]
      | cons q fs' =>
        refine ⟨escapeList k.data ++ '"' :: ':' :: encodeJVal v ++
          ',' :: encodeFields (q :: fs'), ?_⟩
        simp [encodeFields, encodeString, List.append_assoc]
    have hin : encodeObj ((k, v) :: fs) = '{' :: '"' :: (Y ++ ['}']) := by
      simp [encodeObj, hY, List.append_assoc]
    rw [hin]
    have hred : decodeLine ('{' :: '"' :: (Y ++ ['}'])) =
        match parsePairs (('"' :: (Y ++ ['}'])).length + 1) ('"' :: (Y ++ ['}'])) with
        | some (ps, r) => if r = [] then some ps else none
        | none => none := by
      simp [decodeLine]
    have henc : '"' :: (Y ++ ['}']) =
        encodeFields ((k, v) :: fs) ++ ('}' :: ([] : List Char)) := by
      rw [hY]
      simp
    rw [hred, henc]
    have hlen := length_encodeFields ((k, v) :: fs)
    simp only [List.length_cons] at hlen
    have hfuel : ((k, v) :: fs).length ≤
        (encodeFields ((k, v) :: fs) ++ ('}' :: ([] : List Char))).length + 1 := by
      simp only [List.length_append, List.length_cons]
      omega
    rw [parsePairs_encode ((k, v) :: fs) [] _ (by simp) hfuel]
    simp

theorem linesAux_append_line (line rest : List Char) (h : '\n' ∉ line) :
    linesAux (line ++ '\n' :: rest) = line :: linesAux rest := by
  induction line with
  | nil => simp [linesAux]
  | cons c cs ih =>
    have hc : c ≠ '\n' := fun he => h (he ▸ List.mem_cons_self c cs)
    have hcs : '\n' ∉ cs := fun hm => h (List.mem_cons_of_mem c hm)
    simp only [List.cons_append, linesAux, hc, if_neg, ite_false, List.append_eq]
    rw [ih hcs]

theorem linesAux_flatten_msgs (msgs : List JObj) :
    linesAux ((msgs.map fun m => encodeObj m ++ ['\n']).flatten) =
      msgs.map encodeObj ++ [[]] := by
  induction msgs with
  | nil => simp [linesAux]
  | cons m ms ih =>
    simp only [List.map_cons, List.flatten_cons, List.append_assoc,
      List.singleton_append]
    rw [linesAux_append_line _ _ (newline_not_mem_encodeObj m), ih]
    simp

theorem loadLine_encodeObj_msg (sess : GoSession) (m : JObj)
    (hm : m.lookup "_type" ≠ some (.str "metadata")) :
    loadLine sess (encodeObj m) =
      { sess with messages := sess.messages ++ [m] } := by
  have hne : encodeObj m ≠ [] := by simp [encodeObj]
  simp [loadLine, hne, decodeLine_encode, hm]

theorem loadLine_metaLine (sess s : GoSession) :
    loadLine sess (encodeObj (metaLine s)) =
      { sess with metadata := s.metadata, createdAt := s.createdAt } := by
  have hne : encodeObj (metaLine s) ≠ [] := by simp [encodeObj]
  have h1 : (metaLine s).lookup "_type" = some (.str "metadata") := rfl
  have h2 : (metaLine s).lookup "created_at" = some (.str s.createdAt) := rfl
  have h3 : (metaLine s).lookup "metadata" = some (.obj s.metadata) := rfl
  simp [loadLine, hne, decodeLine_encode, h1, h2, h3]

theorem foldl_loadLine_msgs (msgs : List JObj) (sess : GoSession)
    (h : ∀ m ∈ msgs, m.lookup "_type" ≠ some (.str "metadata")) :
    (msgs.map encodeObj).foldl loadLine sess =
      { sess with messages := sess.messages ++ msgs } := by
  induction msgs generalizing sess with
  | nil => simp
  | cons m ms ih =>
    simp only [List.map_cons, List.foldl_cons]
    rw [loadLine_encodeObj_msg sess m (h m (List.mem_cons_self m ms))]
    rw [ih _ (fun m' hm' => h m' (List.mem_cons_of_mem _ hm'))]
    simp [List.append_assoc]

theorem linesAux_saveFileChars (s : GoSession) :
    linesAux (saveFileChars s) =
      encodeObj (metaLine s) :: (s.messages.map encodeObj ++ [[]]) := by
  simp only [saveFileChars]
  rw [List.append_assoc, List.singleton_append,
    linesAux_append_line _ _ (newline_not_mem_encodeObj _),
    linesAux_flatten_msgs]

theorem takeWhile_append_stop {α : Type} (p : α → Bool) (l₁ : List α) (x : α)
    (l₂ : List α) (h1 : ∀ y ∈ l₁, p y = true) (h2 : p x = false) :
    (l₁ ++ x :: l₂).takeWhile p = l₁ := by
  induction l₁ with
  | nil => simp [List.takeWhile_cons, h2]
  | cons y ys ih =>
    simp [List.takeWhile_cons, h1 y (List.mem_cons_self y ys),
      ih fun z hz => h1 z (List.mem_cons_of_mem y hz)]

/-- C5 (amended).  Persisting a session with `Save` and reloading it from
the written file restores exactly the in-memory ordered message list — no
turn lost, duplicated or reordered — PROVIDED (a) no appended turn
smuggles a `_type` field equal to `"metadata"` into its message map (such
a turn is reclassified as the metadata line on reload and dropped), and
(b) every written line, the metadata line included, stays under the
scanner's 64 KiB token bound (a longer line halts the scan silently and
loses that turn and every later one). -/
theorem claim5_save_load_roundtrip (sess : GoSession) (key now : String)
    (hmeta : utf8Len (encodeObj (metaLine sess)) < maxScanTokenSize)
    (hlen : ∀ m ∈ sess.messages, utf8Len (encodeObj m) < maxScanTokenSize)
    (h : ∀ m ∈ sess.messages, m.lookup "_type" ≠ some (.str "metadata")) :
    (loadSession key now (saveFile sess)).messages = sess.messages := by
  rw [loadSession]
  have hdata : (saveFile sess).data = saveFileChars sess := rfl
  rw [hdata]
  have hall : scanLines (saveFileChars sess) = linesAux (saveFileChars sess) := by
    rw [scanLines]
    refine List.takeWhile_eq_self_iff.2 ?_
    rw [linesAux_saveFileChars]
    intro x hx
    rcases List.mem_cons.1 hx with rfl | hx2
    · simpa using hmeta
    · rcases List.mem_append.1 hx2 with hx3 | hx3
      · obtain ⟨m, hm, rfl⟩ := List.mem_map.1 hx3
        simpa using hlen m hm
      · rcases List.mem_singleton.1 hx3 with rfl
        simp [utf8Len, maxScanTokenSize]
  rw [hall, linesAux_saveFileChars, List.foldl_cons, loadLine_metaLine,
    List.foldl_append, foldl_loadLine_msgs sess.messages _ h]
  simp [loadLine, newSession]

/-- The 64 KiB failure mode of `Manager.load`, proved of the model: a
session whose messages are `good ++ m :: rest`, where every line up to
and including the metadata line is short but `m`'s JSON line reaches the
scanner's token bound, reloads with ONLY the `good` prefix — the
over-long turn and every turn after it are silently lost even though
`Save` wrote them all. -/
theorem loadSession_drops_overlong_line (key now : String) (sess : GoSession)
    (good : List JObj) (m : JObj) (rest : List JObj)
    (hsplit : sess.messages = good ++ m :: rest)
    (hmeta : utf8Len (encodeObj (metaLine sess)) < maxScanTokenSize)
    (hgood : ∀ g ∈ good, utf8Len (encodeObj g) < maxScanTokenSize)
    (hgoodty : ∀ g ∈ good, g.lookup "_type" ≠ some (.str "metadata"))
    (hlong : maxScanTokenSize ≤ utf8Len (encodeObj m)) :
    (loadSession key now (saveFile sess)).messages = good := by
  rw [loadSession]
  have hdata : (saveFile sess).data = saveFileChars sess := rfl
  rw [hdata]
  have hscan : scanLines (saveFileChars sess) =
      encodeObj (metaLine sess) :: good.map encodeObj := by
    rw [scanLines, linesAux_saveFileChars, hsplit, List.map_append,
      List.map_cons, List.append_assoc, List.cons_append]
    rw [List.takeWhile_cons]
    rw [if_pos (by simpa using hmeta)]
    rw [takeWhile_append_stop _ (good.map encodeObj) (encodeObj m) _
      ?_ (by simpa using Nat.not_lt.2 hlong)]
    intro y hy
    obtain ⟨g, hg, rfl⟩ := List.mem_map.1 hy
    simpa using hgood g hg
  rw [hscan, List.foldl_cons, loadLine_metaLine,
    foldl_loadLine_msgs good _ hgoodty]
  simp [newSession]

/-- C5 counterexample: a turn appended with extra metadata
`{_type: "metadata"}` survives in memory but vanishes on reload — the
save/load round-trip loses it. -/
theorem claim5_counterexample :
    exBadSession.messages.length = 1
    ∧ (loadSession "cli:direct" "T9" (saveFile exBadSession)).messages = []
    ∧ (loadSession "cli:direct" "T9" (saveFile exBadSession)).messages ≠
        exBadSession.messages := by
  refine ⟨rfl, rfl, ?_⟩
  intro hcontra
  have h1 : (loadSession "cli:direct" "T9" (saveFile exBadSession)).messages =
      [] := rfl
  rw [h1] at hcontra
  exact absurd hcontra.symm (by decide)

/-- Witness for the amended C5 at a two-turn session whose lines are all
well under the scanner bound. -/
theorem claim5_witness :
    (∀ m ∈ exGoodSession.messages,
        m.lookup "_type" ≠ some (JVal.str "metadata"))
    ∧ (loadSession "cli:direct" "T9" (saveFile exGoodSession)).messages =
        exGoodSession.messages :=
  ⟨by decide,
   claim5_save_load_roundtrip exGoodSession "cli:direct" "T9"
     (by decide) (by decide) (by decide)⟩
